import Mathlib

/-!
Verification of the Sortify file-routing engine.

The definitions below are a shallow embedding of the Python sources
`engine.py`, `manual/manual.py` and `auto/auto.py`:

* file names are Lean `String`s; `pstem`/`psuffix` model `pathlib.Path.stem`
  and `pathlib.Path.suffix` (the extension of the final component: the part
  from the last dot, provided that dot is neither the first nor the last
  character, else empty);
* `lowerChar`/`upperChar` model Python `str.lower`/`str.upper` on the ASCII
  letters (the only case mapping the sources rely on);
* `natRepr` models Python `str(n)` for a natural number: the decimal digits;
* sizes in gigabytes (`st_size / 1024**3`, a Python float) are modelled
  exactly as rationals;
* filesystem paths are `PPath`: an absolute flag plus the list of components;
* the mutable filesystem is passed explicitly: a destination directory is a
  list of occupied names, a whole tree is a list of entries with their
  directory and name.
-/

namespace Sortify

/-! ## Characters, decimal rendering, case mapping -/

/-- Decimal digit to its character, as in Python's `str` rendering. -/
def digitCh : Nat → Char
  | 0 => '0'
  | 1 => '1'
  | 2 => '2'
  | 3 => '3'
  | 4 => '4'
  | 5 => '5'
  | 6 => '6'
  | 7 => '7'
  | 8 => '8'
  | 9 => '9'
  | _ => '*'

/-- Little-endian decimal digits of `n`, computed with structural fuel so
that the kernel can evaluate it; `digitsRev_eq_digits` identifies it with
`Nat.digits 10`. -/
def digitsRev : Nat → Nat → List Nat
  | 0, _ => []
  | _ + 1, 0 => []
  | fuel + 1, n + 1 => ((n + 1) % 10) :: digitsRev fuel ((n + 1) / 10)

theorem digitsRev_eq_digits : ∀ fuel n, n ≤ fuel → digitsRev fuel n = Nat.digits 10 n := by
  intro fuel
  induction fuel with
  | zero =>
    intro n hn
    interval_cases n
    simp [digitsRev]
  | succ fuel ih =>
    intro n hn
    match n with
    | 0 => simp [digitsRev]
    | m + 1 =>
      rw [show digitsRev (fuel + 1) (m + 1) = ((m + 1) % 10) :: digitsRev fuel ((m + 1) / 10)
            by simp [digitsRev],
        ih ((m + 1) / 10) (by omega),
        Nat.digits_def' (by norm_num : 1 < 10) (Nat.succ_pos m)]

/-- Python `str(n)` for a natural number `n`: its decimal digits. -/
def natRepr (n : Nat) : String :=
  if n = 0 then "0" else ⟨((digitsRev n n).map digitCh).reverse⟩

/-- ASCII lower-casing of one character, as Python `str.lower` acts on the
letters `A`..`Z` (all other characters are left unchanged). -/
def lowerChar : Char → Char
  | 'A' => 'a'
  | 'B' => 'b'
  | 'C' => 'c'
  | 'D' => 'd'
  | 'E' => 'e'
  | 'F' => 'f'
  | 'G' => 'g'
  | 'H' => 'h'
  | 'I' => 'i'
  | 'J' => 'j'
  | 'K' => 'k'
  | 'L' => 'l'
  | 'M' => 'm'
  | 'N' => 'n'
  | 'O' => 'o'
  | 'P' => 'p'
  | 'Q' => 'q'
  | 'R' => 'r'
  | 'S' => 's'
  | 'T' => 't'
  | 'U' => 'u'
  | 'V' => 'v'
  | 'W' => 'w'
  | 'X' => 'x'
  | 'Y' => 'y'
  | 'Z' => 'z'
  | c => c

/-- ASCII upper-casing of one character, as Python `str.upper` acts on the
letters `a`..`z`. -/
def upperChar : Char → Char
  | 'a' => 'A'
  | 'b' => 'B'
  | 'c' => 'C'
  | 'd' => 'D'
  | 'e' => 'E'
  | 'f' => 'F'
  | 'g' => 'G'
  | 'h' => 'H'
  | 'i' => 'I'
  | 'j' => 'J'
  | 'k' => 'K'
  | 'l' => 'L'
  | 'm' => 'M'
  | 'n' => 'N'
  | 'o' => 'O'
  | 'p' => 'P'
  | 'q' => 'Q'
  | 'r' => 'R'
  | 's' => 'S'
  | 't' => 'T'
  | 'u' => 'U'
  | 'v' => 'V'
  | 'w' => 'W'
  | 'x' => 'X'
  | 'y' => 'Y'
  | 'z' => 'Z'
  | c => c

/-- Python `s.lower()` (ASCII). -/
def strLower (s : String) : String := ⟨s.data.map lowerChar⟩

/-- Python `s.upper()` (ASCII). -/
def strUpper (s : String) : String := ⟨s.data.map upperChar⟩

/-- Python `s.lstrip(".")`: drop every leading dot. -/
def lstripDots (s : String) : String := ⟨s.data.dropWhile (fun c => c = '.')⟩

/-! ## `pathlib` stem and suffix of a file name

`pathlib` computes `i = name.rfind('.')`; when `0 < i < len(name) - 1` the
suffix is `name[i:]` and the stem `name[:i]`, otherwise the suffix is empty
and the stem the whole name.  On the reversed character list the part after
the last dot is the longest dot-free prefix. -/

/-- The characters of the `pathlib` suffix of a name given as a character
list: on the reversed name, `takeWhile` is the part after the last dot and
`dropWhile` starts at the last dot (empty when there is none); the suffix is
non-empty exactly when the last dot is neither the last character
(`takeWhile ≠ []`) nor the first (`tail of dropWhile ≠ []`). -/
def notDot (c : Char) : Bool := !(c == '.')

def suffixData (l : List Char) : List Char :=
  if l.reverse.dropWhile notDot = [] then []
  else if l.reverse.takeWhile notDot = [] ∨ (l.reverse.dropWhile notDot).tail = [] then []
  else '.' :: (l.reverse.takeWhile notDot).reverse

/-- `pathlib.Path(name).suffix`. -/
def psuffix (s : String) : String := ⟨suffixData s.data⟩

/-- `pathlib.Path(name).stem`: the name with its suffix removed. -/
def pstem (s : String) : String := ⟨s.data.take (s.data.length - (suffixData s.data).length)⟩

/-! ## Paths -/

/-- A filesystem path: whether it is absolute, and its components.  Joining
with `/` appends a component; `pathlib` treats paths syntactically, and so
does the model. -/
structure PPath where
  absolute : Bool
  parts : List String
deriving DecidableEq

/-- `p / s` for a single component `s`. -/
def PPath.child (p : PPath) (s : String) : PPath := ⟨p.absolute, p.parts ++ [s]⟩

/-- `Path(base) / rel` for a relative `rel`: the components concatenate. -/
def PPath.joinRel (base rel : PPath) : PPath := ⟨base.absolute, base.parts ++ rel.parts⟩

/-! ## Metadata (`get_file_metadata`) -/

/-- The classification-relevant facts `get_file_metadata` returns: the
lower-cased dot-inclusive extension, the size in gigabytes, the creation
year. -/
structure FileMeta where
  extension : String
  size_gb : ℚ
  year : Nat
deriving DecidableEq

/-- `get_file_metadata`, given the file's name, its `st_size` in bytes and
the year derived from its birth (or status-change) time:
`extension = p.suffix.lower()`, `size_gb = st_size / 1024**3`. -/
def get_file_metadata (name : String) (st_size : Nat) (year : Nat) : FileMeta :=
  { extension := strLower (psuffix name)
    size_gb := (st_size : ℚ) / ((1024 : ℚ) ^ 3)
    year := year }

/-! ## Routing configuration -/

/-- One category's rule object from `config.json`: `rules.get("extensions", [])`
defaults to the empty list, the size bounds to absent, the two flags to
`False`. -/
structure CategoryRule where
  path : PPath
  extensions : List String := []
  min_gb : Option ℚ := none
  max_gb : Option ℚ := none
  year : Bool := false
  file_type : Bool := false
deriving DecidableEq

/-- The `"routing"` mapping: category names with their rules, in the JSON
object's (insertion) order; Python dict keys are unique. -/
abbrev Routing := List (String × CategoryRule)

/-- Python `routing[category]` as a partial lookup (first pair with the key;
a dict has each key once). -/
def lookupRule (routing : Routing) (c : String) : Option CategoryRule :=
  (routing.find? (fun p => p.1 = c)).map (fun p => p.2)

/-- `_rule_matches(metadata, rules)` from `engine.py`: a non-empty extension
list must contain the metadata's extension; a configured `min_gb` must not
exceed `size_gb`; a configured `max_gb` must not be exceeded; the `year`
field is read but never tested (the source comments that year no longer
filters). -/
def _rule_matches (m : FileMeta) (rules : CategoryRule) : Bool :=
  if rules.extensions ≠ [] ∧ m.extension ∉ rules.extensions then false
  else
    match rules.min_gb with
    | some mn => if m.size_gb < mn then false else
        match rules.max_gb with
        | some mx => if mx < m.size_gb then false else true
        | none => true
    | none =>
        match rules.max_gb with
        | some mx => if mx < m.size_gb then false else true
        | none => true

/-- `match_category(metadata, routing)` from `engine.py`: walk the mapping in
order, skip the reserved names, return the first category whose rule
matches, else `"Others"`. -/
def match_category (m : FileMeta) : Routing → String
  | [] => "Others"
  | (category, rules) :: rest =>
    if category = "Others" ∨ category = "Folders" then match_category m rest
    else if _rule_matches m rules then category
    else match_category m rest

/-! ## First facts about classification -/

theorem _rule_matches_iff (m : FileMeta) (r : CategoryRule) :
    _rule_matches m r = true ↔
      ((r.extensions = [] ∨ m.extension ∈ r.extensions)
        ∧ (∀ mn, r.min_gb = some mn → mn ≤ m.size_gb)
        ∧ (∀ mx, r.max_gb = some mx → m.size_gb ≤ mx)) := by
  rcases r with ⟨p, exts, mn, mx, y, t⟩
  unfold _rule_matches
  rcases mn with _ | mn <;> rcases mx with _ | mx <;>
    split_ifs with h1 h2 h3 <;>
    simp_all [not_lt, not_or, not_and_or] <;>
    tauto

theorem match_category_eq_find (m : FileMeta) (routing : Routing) :
    match_category m routing =
      (((routing.filter
            (fun p => !(decide (p.1 = "Others" ∨ p.1 = "Folders")))).find?
          (fun p => _rule_matches m p.2)).map Prod.fst).getD "Others" := by
  induction routing with
  | nil => rfl
  | cons hd tl ih =>
    rcases hd with ⟨c, r⟩
    rw [List.filter_cons]
    by_cases hres : c = "Others" ∨ c = "Folders"
    · rw [if_neg (by simp [hres])]
      have hskip : match_category m ((c, r) :: tl) = match_category m tl := by
        simp [match_category, hres]
      rw [hskip]
      exact ih
    · rw [if_pos (by simp [hres])]
      by_cases hm : _rule_matches m r = true
      · rw [List.find?_cons_of_pos _ (by simpa using hm)]
        simp [match_category, hres, hm]
      · rw [List.find?_cons_of_neg _ (by simpa using hm)]
        have hskip : match_category m ((c, r) :: tl) = match_category m tl := by
          simp [match_category, hres, hm]
        rw [hskip]
        exact ih

/-- Claim C1: classification iterates the categories in the mapping's declared
order, skips the reserved names `"Others"` and `"Folders"`, returns the first
category whose rule fully matches — extension membership when a non-empty
extension list is configured, `size_gb ≥ min_gb` when configured,
`size_gb ≤ max_gb` when configured, with an absent or empty extension list
accepting any extension and the rule's `year` flag never affecting matching —
and returns `"Others"` when no category matches. -/
theorem C1_match_category_first_match (m : FileMeta) (routing : Routing) :
    (match_category m routing =
      (((routing.filter
            (fun p => !(decide (p.1 = "Others" ∨ p.1 = "Folders")))).find?
          (fun p => _rule_matches m p.2)).map Prod.fst).getD "Others")
    ∧ (∀ r : CategoryRule, ∀ b : Bool,
        _rule_matches m { r with year := b } = _rule_matches m r)
    ∧ (∀ r : CategoryRule,
        _rule_matches m r = true ↔
          ((r.extensions = [] ∨ m.extension ∈ r.extensions)
            ∧ (∀ mn, r.min_gb = some mn → mn ≤ m.size_gb)
            ∧ (∀ mx, r.max_gb = some mx → m.size_gb ≤ mx))) := by
  refine ⟨match_category_eq_find m routing, ?_, fun r => _rule_matches_iff m r⟩
  intro r b
  rfl

/-! ## `safe_move`: collision-safe naming

`safe_move(src, dest_dir)` creates `dest_dir`, and if `dest_dir / src.name`
already exists walks `f"{stem}_{counter}{suffix}"` for `counter = 1, 2, …`
until a free name is found.  The destination directory is modelled by the
list of names already present in it.  The source's `while True` loop is
given the fuel `existing.length + 1`, which the pigeonhole argument
`exists_free_cand` shows always suffices, so the model computes exactly the
name the loop finds. -/

/-- The candidate name `f"{stem}_{counter}{suffix}"`. -/
def candName (stem suffix : String) (counter : Nat) : String :=
  stem ++ "_" ++ natRepr counter ++ suffix

/-- The collision loop of `safe_move`: the first counter `≥ counter` whose
candidate name is unoccupied, searching `fuel` steps. -/
def findFreeFrom (existing : List String) (stem suffix : String) : Nat → Nat → Nat
  | 0, counter => counter
  | fuel + 1, counter =>
    if candName stem suffix counter ∈ existing then
      findFreeFrom existing stem suffix fuel (counter + 1)
    else counter

/-- The final name `safe_move` gives `srcName` when moving it into a
directory whose occupied names are `existing`. -/
def safe_move_name (existing : List String) (srcName : String) : String :=
  if srcName ∈ existing then
    candName (pstem srcName) (psuffix srcName)
      (findFreeFrom existing (pstem srcName) (psuffix srcName) (existing.length + 1) 1)
  else srcName

theorem digitCh_inj_lt {a b : Nat} (ha : a < 10) (hb : b < 10)
    (h : digitCh a = digitCh b) : a = b := by
  have key : ∀ x y : Fin 10, digitCh x.val = digitCh y.val → x = y := by decide
  have := key ⟨a, ha⟩ ⟨b, hb⟩ h
  simpa [Fin.ext_iff] using this

theorem map_digitCh_inj (xs ys : List Nat) (hx : ∀ x ∈ xs, x < 10)
    (hy : ∀ y ∈ ys, y < 10) (h : xs.map digitCh = ys.map digitCh) : xs = ys := by
  induction xs generalizing ys with
  | nil => cases ys with
    | nil => rfl
    | cons y ys => simp at h
  | cons x xs ih =>
    cases ys with
    | nil => simp at h
    | cons y ys =>
      simp only [List.map_cons, List.cons.injEq] at h
      have hxy := digitCh_inj_lt (hx x (by simp)) (hy y (by simp)) h.1
      subst hxy
      have := ih ys (fun a ha => hx a (by simp [ha])) (fun b hb => hy b (by simp [hb])) h.2
      simp [this]

theorem natRepr_injective : Function.Injective natRepr := by
  have data10 : ∀ n : Nat, n ≠ 0 →
      (natRepr n).data = ((Nat.digits 10 n).map digitCh).reverse := by
    intro n hn
    simp [natRepr, hn, digitsRev_eq_digits n n le_rfl]
  have toDigits : ∀ a b : Nat, a ≠ 0 → b ≠ 0 → natRepr a = natRepr b → a = b := by
    intro a b ha hb h
    have hd : ((Nat.digits 10 a).map digitCh).reverse
        = ((Nat.digits 10 b).map digitCh).reverse := by
      rw [← data10 a ha, ← data10 b hb, h]
    have hmap := List.reverse_injective hd
    have hdig := map_digitCh_inj _ _
      (fun x hxm => Nat.digits_lt_base (by norm_num) hxm)
      (fun y hym => Nat.digits_lt_base (by norm_num) hym) hmap
    have := congrArg (Nat.ofDigits 10) hdig
    rwa [Nat.ofDigits_digits, Nat.ofDigits_digits] at this
  have zeroCase : ∀ b : Nat, b ≠ 0 → natRepr b ≠ "0" := by
    intro b hb heq
    have hd : ((Nat.digits 10 b).map digitCh).reverse = ['0'] := by
      have := congrArg String.data heq
      rwa [data10 b hb] at this
    have hlen : (Nat.digits 10 b).length = 1 := by
      have := congrArg List.length hd
      simpa using this
    obtain ⟨d, hdig⟩ : ∃ d, Nat.digits 10 b = [d] := by
      cases hdigs : Nat.digits 10 b with
      | nil => rw [hdigs] at hlen; simp at hlen
      | cons d t =>
        rw [hdigs] at hlen
        simp at hlen
        exact ⟨d, by rw [hlen]⟩
    rw [hdig] at hd
    simp at hd
    have hd0 : d = 0 := by
      have hdlt : d < 10 := Nat.digits_lt_base (by norm_num) (by rw [hdig]; simp)
      exact digitCh_inj_lt hdlt (by norm_num) hd
    have := congrArg (Nat.ofDigits 10) hdig
    rw [Nat.ofDigits_digits, hd0] at this
    simp [Nat.ofDigits] at this
    exact hb (by exact_mod_cast this)
  intro a b h
  by_cases ha : a = 0 <;> by_cases hb : b = 0
  · omega
  · exfalso
    exact zeroCase b hb (by rw [← h, ha]; simp [natRepr])
  · exfalso
    exact zeroCase a ha (by rw [h, hb]; simp [natRepr])
  · exact toDigits a b ha hb h

theorem candName_injective (stem suffix : String) :
    Function.Injective (candName stem suffix) := by
  intro a b h
  apply natRepr_injective
  apply String.ext
  have hd := congrArg String.data h
  simp only [candName, String.data_append] at hd
  exact List.append_cancel_left (List.append_cancel_right hd)

/-- Among the first `existing.length + 1` candidate counters, one candidate
name is unoccupied: the candidates are pairwise distinct. -/
theorem exists_free_cand (existing : List String) (stem suffix : String) :
    ∃ i, i < existing.length + 1 ∧ candName stem suffix (1 + i) ∉ existing := by
  by_contra hcon
  push_neg at hcon
  have hinj : Function.Injective
      (fun i : Fin (existing.length + 1) => candName stem suffix (1 + i.val)) := by
    intro i j hij
    have := candName_injective stem suffix hij
    exact Fin.ext (by omega)
  have hsub : (Finset.univ.image
        (fun i : Fin (existing.length + 1) => candName stem suffix (1 + i.val)))
      ⊆ existing.toFinset := by
    intro s hs
    simp only [Finset.mem_image] at hs
    obtain ⟨i, _, rfl⟩ := hs
    exact List.mem_toFinset.2 (hcon i.val i.isLt)
  have hcard := Finset.card_le_card hsub
  rw [Finset.card_image_of_injective _ hinj, Finset.card_univ, Fintype.card_fin] at hcard
  have := existing.toFinset_card_le
  omega

/-- The collision loop returns the least free counter at or beyond its
starting counter, provided a free one lies within its fuel. -/
theorem findFreeFrom_spec (existing : List String) (stem suffix : String) :
    ∀ fuel counter, (∃ i, i < fuel ∧ candName stem suffix (counter + i) ∉ existing) →
      candName stem suffix (findFreeFrom existing stem suffix fuel counter) ∉ existing
      ∧ counter ≤ findFreeFrom existing stem suffix fuel counter
      ∧ ∀ k, counter ≤ k → k < findFreeFrom existing stem suffix fuel counter →
          candName stem suffix k ∈ existing := by
  intro fuel
  induction fuel with
  | zero =>
    intro counter h
    obtain ⟨i, hi, _⟩ := h
    omega
  | succ fuel ih =>
    intro counter h
    by_cases hc : candName stem suffix counter ∈ existing
    · have h2 : ∃ i, i < fuel ∧ candName stem suffix (counter + 1 + i) ∉ existing := by
        obtain ⟨i, hi, hfree⟩ := h
        match i with
        | 0 => exact absurd hc (by simpa using hfree)
        | j + 1 =>
          refine ⟨j, by omega, ?_⟩
          have harith : counter + 1 + j = counter + (j + 1) := by omega
          rw [harith]
          exact hfree
      have hrec := ih (counter + 1) h2
      unfold findFreeFrom
      rw [if_pos hc]
      refine ⟨hrec.1, by omega, ?_⟩
      intro k hk1 hk2
      rcases Nat.eq_or_lt_of_le hk1 with heq | hlt
      · rw [← heq]; exact hc
      · exact hrec.2.2 k (by omega) hk2
    · unfold findFreeFrom
      rw [if_neg hc]
      exact ⟨hc, le_refl _, fun k hk1 hk2 => absurd hk2 (by omega)⟩

/-- Claim C3: `safe_move` never overwrites an existing file or directory: a
source whose name is free keeps its name; when the name is taken, the final
name is `<stem>_<n><suffix>` with `n` starting at `1` and incrementing past
every existing conflict until an unused name is found, uniformly for files
and directories (the naming never inspects the entry's kind); in particular,
with `a.txt` already present, a second `a.txt` becomes `a_1.txt`. -/
theorem C3_safe_move_no_overwrite (existing : List String) (srcName : String) :
    (safe_move_name existing srcName ∉ existing)
    ∧ (srcName ∉ existing → safe_move_name existing srcName = srcName)
    ∧ (srcName ∈ existing →
        ∃ n, 1 ≤ n
          ∧ safe_move_name existing srcName = candName (pstem srcName) (psuffix srcName) n
          ∧ candName (pstem srcName) (psuffix srcName) n ∉ existing
          ∧ ∀ k, 1 ≤ k → k < n → candName (pstem srcName) (psuffix srcName) k ∈ existing)
    ∧ safe_move_name ["a.txt"] "a.txt" = "a_1.txt" := by
  have hfree : ∃ i, i < existing.length + 1
      ∧ candName (pstem srcName) (psuffix srcName) (1 + i) ∉ existing :=
    exists_free_cand existing (pstem srcName) (psuffix srcName)
  have hspec := findFreeFrom_spec existing (pstem srcName) (psuffix srcName)
    (existing.length + 1) 1 hfree
  refine ⟨?_, ?_, ?_, by decide⟩
  · unfold safe_move_name
    split_ifs with h
    · exact hspec.1
    · exact h
  · intro h
    simp [safe_move_name, h]
  · intro h
    refine ⟨findFreeFrom existing (pstem srcName) (psuffix srcName) (existing.length + 1) 1,
      hspec.2.1, by simp [safe_move_name, h], hspec.1, fun k hk1 hk2 => hspec.2.2 k hk1 hk2⟩

/-! ## `sort_file`: the planned destination directory -/

/-- The extension subfolder name of `sort_file`:
`ext = metadata["extension"].lstrip(".")`, then `ext.upper()` or
`"UNKNOWN"` when the stripped extension is empty. -/
def typeFolder (extension : String) : String :=
  if lstripDots extension = "" then "UNKNOWN" else strUpper (lstripDots extension)

/-- The category and destination directory `sort_file` computes before
calling `safe_move`: the selected category's configured path, then a year
subfolder when the rule's `year` flag is set, then an extension subfolder
when its `file_type` flag is set, finally resolved against `base_dir` when
that was supplied and the path is relative.  `none` models the `KeyError`
raised when the selected category has no entry in the routing mapping. -/
def sort_file_dest (routing : Routing) (m : FileMeta) (base : Option PPath) :
    Option (String × PPath) :=
  (lookupRule routing (match_category m routing)).map fun rule =>
    let d1 := rule.path
    let d2 := if rule.year then d1.child (natRepr m.year) else d1
    let d3 := if rule.file_type then d2.child (typeFolder m.extension) else d2
    let d4 := match base with
      | some b => if d3.absolute then d3 else b.joinRel d3
      | none => d3
    (match_category m routing, d4)

/-- The example routing of the spec's year/type scenario: a `Media` rule with
`year` and `file_type` set. -/
def mediaRouting : Routing :=
  [("Media", { path := ⟨true, ["d", "img"]⟩, extensions := [".jpg"],
               year := true, file_type := true }),
   ("Others", { path := ⟨true, ["d", "misc"]⟩ })]

/-- Claim C7: the destination starts from the selected category's configured
path; a set `year` flag appends a subfolder named by the creation year; a
set `file_type` flag appends, inside it, a subfolder named by the upper-cased
extension without its dot, or `UNKNOWN` for an extension-less file; a
relative result is resolved against the supplied base directory (an absolute
one is left alone); a rule with `year` and a 2023 creation date ends in
`2023`, and with `file_type` and a `.jpg` extension in `2023/JPG`. -/
theorem C7_sort_file_dest_layout (routing : Routing) (m : FileMeta) :
    (∀ rule, lookupRule routing (match_category m routing) = some rule →
      (sort_file_dest routing m none =
          some (match_category m routing,
            ⟨rule.path.absolute,
              rule.path.parts
                ++ (if rule.year then [natRepr m.year] else [])
                ++ (if rule.file_type then [typeFolder m.extension] else [])⟩)
        ∧ (∀ b : PPath, rule.path.absolute = false →
            sort_file_dest routing m (some b) =
              some (match_category m routing,
                ⟨b.absolute,
                  b.parts ++ (rule.path.parts
                    ++ (if rule.year then [natRepr m.year] else [])
                    ++ (if rule.file_type then [typeFolder m.extension] else []))⟩))
        ∧ (∀ b : PPath, rule.path.absolute = true →
            sort_file_dest routing m (some b) =
              some (match_category m routing,
                ⟨true,
                  rule.path.parts
                    ++ (if rule.year then [natRepr m.year] else [])
                    ++ (if rule.file_type then [typeFolder m.extension] else [])⟩))))
    ∧ sort_file_dest mediaRouting (get_file_metadata "photo.jpg" 0 2023) none =
        some ("Media", ⟨true, ["d", "img", "2023", "JPG"]⟩) := by
  constructor
  · intro rule hrule
    have hdest : ∀ y t : Bool,
        (if t then
            (if y then rule.path.child (natRepr m.year) else rule.path).child
              (typeFolder m.extension)
          else if y then rule.path.child (natRepr m.year) else rule.path)
        = (⟨rule.path.absolute,
            rule.path.parts ++ (if y then [natRepr m.year] else [])
              ++ (if t then [typeFolder m.extension] else [])⟩ : PPath) := by
      intro y t
      cases y <;> cases t <;> simp [PPath.child]
    refine ⟨?_, ?_, ?_⟩
    · simp only [sort_file_dest, hrule, Option.map_some']
      rw [hdest rule.year rule.file_type]
    · intro b hb
      simp only [sort_file_dest, hrule, Option.map_some']
      rw [hdest rule.year rule.file_type]
      simp [hb, PPath.joinRel]
    · intro b hb
      simp only [sort_file_dest, hrule, Option.map_some']
      rw [hdest rule.year rule.file_type]
      simp [hb]
  · decide

/-! ## Case-sensitivity of extension matching

`get_file_metadata` lower-cases the file's extension, but `_rule_matches`
compares it with the configured list's entries verbatim. -/

theorem lowerChar_eq_dot {c : Char} : lowerChar c = '.' ↔ c = '.' := by
  constructor
  · intro h
    unfold lowerChar at h
    split at h <;> first
      | assumption
      | exact absurd h (by decide)
  · intro h
    subst h
    decide

theorem notDot_lowerChar (c : Char) : notDot (lowerChar c) = notDot c := by
  by_cases h : c = '.'
  · subst h
    decide
  · have h2 : ¬(lowerChar c = '.') := fun hh => h (lowerChar_eq_dot.1 hh)
    simp [notDot, h, h2]

theorem suffixData_map_lower (l : List Char) :
    suffixData (l.map lowerChar) = (suffixData l).map lowerChar := by
  have hcomp : notDot ∘ lowerChar = notDot := funext notDot_lowerChar
  have htw : (l.map lowerChar).reverse.takeWhile notDot
      = (l.reverse.takeWhile notDot).map lowerChar := by
    rw [← List.map_reverse, List.takeWhile_map, hcomp]
  have hdwm : (l.map lowerChar).reverse.dropWhile notDot
      = (l.reverse.dropWhile notDot).map lowerChar := by
    rw [← List.map_reverse, List.dropWhile_map, hcomp]
  rw [suffixData, suffixData, htw, hdwm]
  by_cases h1 : l.reverse.dropWhile notDot = []
  · rw [if_pos (by rw [h1]; rfl), if_pos h1]
    rfl
  · obtain ⟨x, a, hxa⟩ : ∃ x a, l.reverse.dropWhile notDot = x :: a := by
      cases hc : l.reverse.dropWhile notDot with
      | nil => exact absurd hc h1
      | cons x a => exact ⟨x, a, rfl⟩
    rw [hxa]
    by_cases h2 : l.reverse.takeWhile notDot = [] ∨ a = []
    · rw [if_neg (by simp), if_pos ?hc1, if_neg (by simp), if_pos (by simpa using h2)]
      · rfl
      case hc1 =>
        rcases h2 with h | h
        · exact Or.inl (by rw [h]; rfl)
        · exact Or.inr (by simp [h])
    · rw [if_neg (by simp), if_neg ?hc2, if_neg (by simp), if_neg (by simpa using h2)]
      · simp [List.map_reverse, show lowerChar '.' = '.' from rfl]
      case hc2 =>
        push_neg at h2 ⊢
        refine ⟨by simpa using h2.1, by simpa using h2.2⟩

theorem psuffix_strLower (s : String) : psuffix (strLower s) = strLower (psuffix s) := by
  apply String.ext
  simpa [psuffix, strLower] using suffixData_map_lower s.data

/-- The category a classification returns is `"Others"` or one of the
mapping's keys. -/
theorem match_category_mem_keys (m : FileMeta) :
    ∀ routing : Routing,
      match_category m routing = "Others" ∨ match_category m routing ∈ routing.map Prod.fst := by
  intro routing
  induction routing with
  | nil => exact Or.inl rfl
  | cons hd tl ih =>
    rcases hd with ⟨c, r⟩
    by_cases hres : c = "Others" ∨ c = "Folders"
    · rcases ih with h | h
      · exact Or.inl (by simpa [match_category, hres] using h)
      · exact Or.inr (by simp [match_category, hres, h])
    · by_cases hm : _rule_matches m r = true
      · exact Or.inr (by simp [match_category, hres, hm])
      · rcases ih with h | h
        · exact Or.inl (by simpa [match_category, hres, hm] using h)
        · exact Or.inr (by simp [match_category, hres, hm, h])

/-- When the keys are distinct (a Python dict), the returned non-reserved
category's own rule matched. -/
theorem match_category_selected_matches (m : FileMeta) :
    ∀ routing : Routing, (routing.map Prod.fst).Nodup →
      ∀ cat r, (cat, r) ∈ routing → ¬(cat = "Others" ∨ cat = "Folders") →
        match_category m routing = cat → _rule_matches m r = true := by
  intro routing
  induction routing with
  | nil => intro _ cat r hmem; exact absurd hmem (by simp)
  | cons hd tl ih =>
    rcases hd with ⟨c, rc⟩
    intro hnodup cat r hmem hcat hsel
    simp only [List.map_cons, List.nodup_cons] at hnodup
    rcases List.mem_cons.1 hmem with heq | htl
    · have hcc : cat = c := by
        have := congrArg Prod.fst heq
        simpa using this
      have hrr : r = rc := by
        have := congrArg Prod.snd heq
        simpa using this
      subst hcc
      subst hrr
      by_cases hm : _rule_matches m r = true
      · exact hm
      · exfalso
        have hsel2 : match_category m tl = cat := by
          simpa [match_category, hcat, hm] using hsel
        rcases match_category_mem_keys m tl with h | h
        · rw [hsel2] at h
          exact hcat (Or.inl h)
        · rw [hsel2] at h
          exact hnodup.1 (by simpa using h)
    · by_cases hres : c = "Others" ∨ c = "Folders"
      · have hsel2 : match_category m tl = cat := by
          simpa [match_category, hres] using hsel
        exact ih hnodup.2 cat r htl hcat hsel2
      · by_cases hm : _rule_matches m rc = true
        · have hsel2 : c = cat := by simpa [match_category, hres, hm] using hsel
          exfalso
          apply hnodup.1
          rw [hsel2]
          exact List.mem_map.2 ⟨(cat, r), htl, rfl⟩
        · have hsel2 : match_category m tl = cat := by
            simpa [match_category, hres, hm] using hsel
          exact ih hnodup.2 cat r htl hcat hsel2

/-- The metadata of a file named `photo.JPG`: its extension is lower-cased
to `.jpg`. -/
def mJpg : FileMeta := get_file_metadata "photo.JPG" 0 2020

/-- A routing whose `Images` extension list is written upper-case. -/
def routingUpper : Routing :=
  [("Images", { path := ⟨true, ["img"]⟩, extensions := [".JPG"] }),
   ("Others", { path := ⟨true, ["misc"]⟩ })]

/-- The same routing with the list written lower-case. -/
def routingLower : Routing :=
  [("Images", { path := ⟨true, ["img"]⟩, extensions := [".jpg"] }),
   ("Others", { path := ⟨true, ["misc"]⟩ })]

/-- Claim C2, counterexample: the match result is NOT invariant under the
letter case of the entries in the configured list.  The file `photo.JPG`
matches the `Images` rule when the list says `.jpg` but falls through to
`Others` when the same list is written `.JPG`, because `get_file_metadata`
lower-cases the file's extension while `_rule_matches` compares the
configured entries verbatim. -/
theorem C2_counterexample_list_case :
    strLower ".JPG" = ".jpg"
    ∧ mJpg.extension = ".jpg"
    ∧ match_category mJpg routingLower = "Images"
    ∧ match_category mJpg routingUpper = "Others" := by
  refine ⟨by decide, by decide, by decide, by decide⟩

/-- Claim C2 (amended): for a category with a non-empty configured extension
list (the reserved names aside, which are never rule-evaluated),
classification selects it only when the file's lower-cased, dot-inclusive
extension is literally a member of the list; the result is therefore
invariant under the letter case of the file's extension — but not under the
letter case of the configured entries: an entry that is not written exactly
as the lower-cased extension never matches. -/
theorem C2_amended_extension_membership (routing : Routing) :
    ((routing.map Prod.fst).Nodup →
      ∀ m : FileMeta, ∀ cat r, (cat, r) ∈ routing →
        ¬(cat = "Others" ∨ cat = "Folders") →
        r.extensions ≠ [] → match_category m routing = cat →
        m.extension ∈ r.extensions)
    ∧ (∀ n₁ n₂ : String, ∀ size yr : Nat, strLower n₁ = strLower n₂ →
        match_category (get_file_metadata n₁ size yr) routing
          = match_category (get_file_metadata n₂ size yr) routing) := by
  constructor
  · intro hnodup m cat r hmem hcat hne hsel
    have hmatch := match_category_selected_matches m routing hnodup cat r hmem hcat hsel
    rcases (_rule_matches_iff m r).1 hmatch with ⟨hext, _, _⟩
    rcases hext with h | h
    · exact absurd h hne
    · exact h
  · intro n₁ n₂ size yr hlow
    have hext : strLower (psuffix n₁) = strLower (psuffix n₂) := by
      rw [← psuffix_strLower, ← psuffix_strLower, hlow]
    have : get_file_metadata n₁ size yr = get_file_metadata n₂ size yr := by
      simp [get_file_metadata, hext]
    rw [this]

/-! ## Stability of the extension under collision renaming

`safe_move` renames `name` to `f"{stem}_{counter}{suffix}"`.  For every name
that does not end in a dot, the renamed file has the same `pathlib` suffix,
so re-classifying it later gives the same category.  (A name ending in a
dot, such as `a.`, has an empty suffix but gains the suffix `._1` when
renamed — the C5 counterexample.) -/

theorem mem_takeWhile (p : Char → Bool) :
    ∀ l : List Char, ∀ x, x ∈ l.takeWhile p → p x = true := by
  intro l
  induction l with
  | nil => simp [List.takeWhile]
  | cons y t ih =>
    intro x hx
    by_cases hy : p y = true
    · rw [List.takeWhile_cons, if_pos hy] at hx
      rcases List.mem_cons.1 hx with rfl | hx
      · exact hy
      · exact ih x hx
    · rw [List.takeWhile_cons, if_neg hy] at hx
      exact absurd hx (List.not_mem_nil x)

theorem takeWhile_all_append (p : Char → Bool) :
    ∀ xs ys : List Char, (∀ x ∈ xs, p x = true) →
      (xs ++ ys).takeWhile p = xs ++ ys.takeWhile p := by
  intro xs
  induction xs with
  | nil => simp
  | cons x t ih =>
    intro ys h
    rw [List.cons_append, List.takeWhile_cons, if_pos (h x (by simp)), ih ys
      (fun a ha => h a (by simp [ha])), List.cons_append]

theorem dropWhile_all_append (p : Char → Bool) :
    ∀ xs ys : List Char, (∀ x ∈ xs, p x = true) →
      (xs ++ ys).dropWhile p = ys.dropWhile p := by
  intro xs
  induction xs with
  | nil => simp
  | cons x t ih =>
    intro ys h
    rw [List.cons_append, List.dropWhile_cons, if_pos (h x (by simp))]
    exact ih ys (fun a ha => h a (by simp [ha]))

theorem dropWhile_head_dot :
    ∀ l : List Char, ∀ x a, l.dropWhile notDot = x :: a → x = '.' := by
  intro l
  induction l with
  | nil => simp [List.dropWhile]
  | cons y t ih =>
    intro x a h
    by_cases hy : notDot y = true
    · rw [List.dropWhile_cons, if_pos hy] at h
      exact ih x a h
    · rw [List.dropWhile_cons, if_neg hy] at h
      cases h
      simpa [notDot] using hy

/-- How a name splits into its `pathlib` stem and suffix: either the suffix
is empty and the stem the whole name, or the reversed name is
`tw ++ '.' :: a` with `tw` the non-empty dot-free part after the last dot
and `a` the non-empty reversed stem. -/
theorem name_decomp (s : String) :
    ((psuffix s).data = [] ∧ (pstem s).data = s.data)
    ∨ (∃ tw a, s.data.reverse = tw ++ '.' :: a ∧ tw ≠ [] ∧ a ≠ []
        ∧ (∀ x ∈ tw, notDot x = true)
        ∧ (psuffix s).data = '.' :: tw.reverse ∧ (pstem s).data = a.reverse) := by
  unfold psuffix pstem suffixData
  by_cases h1 : s.data.reverse.dropWhile notDot = []
  · left
    rw [if_pos h1]
    simp
  · by_cases h2 : s.data.reverse.takeWhile notDot = []
        ∨ (s.data.reverse.dropWhile notDot).tail = []
    · left
      rw [if_neg h1, if_pos h2]
      simp
    · right
      have hcond : ¬(s.data.reverse.takeWhile notDot = []
          ∨ (s.data.reverse.dropWhile notDot).tail = []) := h2
      push_neg at h2
      obtain ⟨x, a, hxa⟩ : ∃ x a, s.data.reverse.dropWhile notDot = x :: a := by
        cases hc : s.data.reverse.dropWhile notDot with
        | nil => exact absurd hc h1
        | cons x a => exact ⟨x, a, rfl⟩
      have hx : x = '.' := dropWhile_head_dot _ x a hxa
      subst hx
      have hsplit : s.data.reverse = s.data.reverse.takeWhile notDot ++ '.' :: a := by
        conv_lhs => rw [← List.takeWhile_append_dropWhile (p := notDot) (l := s.data.reverse)]
        rw [hxa]
      refine ⟨s.data.reverse.takeWhile notDot, a, hsplit, h2.1, by simpa [hxa] using h2.2,
        fun y hy => mem_takeWhile notDot _ y hy, ?_, ?_⟩
      · rw [if_neg h1, if_neg hcond]
      · rw [if_neg h1, if_neg hcond]
        have hrev : s.data = a.reverse ++ (['.'] ++ (s.data.reverse.takeWhile notDot).reverse) := by
          have hthis := congrArg List.reverse hsplit
          rw [List.reverse_reverse] at hthis
          conv_lhs => rw [hthis]
          simp
        have hlen : s.data.length - ('.' :: (s.data.reverse.takeWhile notDot).reverse).length
            = a.reverse.length := by
          have hL := congrArg List.length hrev
          simp only [List.length_append, List.length_cons, List.length_reverse,
            List.length_nil] at hL ⊢
          omega
        rw [hlen]
        conv =>
          lhs
          rw [hrev]
        exact List.take_left a.reverse _

theorem digitCh_notDot (d : Nat) : notDot (digitCh d) = true := by
  unfold digitCh
  split <;> decide

theorem natRepr_mem_notDot (c : Nat) : ∀ ch ∈ (natRepr c).data, notDot ch = true := by
  intro ch hch
  unfold natRepr at hch
  split at hch
  · have hch2 : ch ∈ ['0'] := hch
    simp at hch2
    subst hch2
    decide
  · have hch2 : ch ∈ ((digitsRev _ _).map digitCh).reverse := hch
    rw [List.mem_reverse, List.mem_map] at hch2
    obtain ⟨d, _, rfl⟩ := hch2
    exact digitCh_notDot d

theorem natRepr_ne_nil (c : Nat) : (natRepr c).data ≠ [] := by
  unfold natRepr
  split
  · decide
  · rename_i h
    intro hcon
    have hl : ((digitsRev c c).map digitCh).reverse = [] := hcon
    cases c with
    | zero => exact h rfl
    | succ m =>
      rw [show digitsRev (m + 1) (m + 1) = ((m + 1) % 10) :: digitsRev m ((m + 1) / 10)
            by simp [digitsRev]] at hl
      simp at hl

theorem candName_data (stem suffix : String) (c : Nat) :
    (candName stem suffix c).data = stem.data ++ '_' :: ((natRepr c).data ++ suffix.data) := by
  have h1 : (candName stem suffix c).data
      = ((stem.data ++ ("_" : String).data) ++ (natRepr c).data) ++ suffix.data := by
    simp [candName, String.data_append]
  rw [h1, show ("_" : String).data = ['_'] by decide]
  simp

set_option maxHeartbeats 1000000 in
/-- The collision rename `f"{stem}_{counter}{suffix}"` of a name that does
not end in a dot keeps the name's `pathlib` suffix, and itself does not end
in a dot. -/
theorem psuffix_candName (s : String) (c : Nat)
    (hlast : s.data.getLast? ≠ some '.') :
    psuffix (candName (pstem s) (psuffix s) c) = psuffix s
    ∧ (candName (pstem s) (psuffix s) c).data.getLast? ≠ some '.' := by
  have hc := candName_data (pstem s) (psuffix s) c
  obtain ⟨rh, rt, hrv⟩ : ∃ rh rt, (natRepr c).data.reverse = rh :: rt := by
    cases hr : (natRepr c).data.reverse with
    | nil =>
      exact absurd (by simpa using congrArg List.reverse hr) (natRepr_ne_nil c)
    | cons rh rt => exact ⟨rh, rt, rfl⟩
  have hrhmem : rh ∈ (natRepr c).data := List.mem_reverse.1 (by rw [hrv]; simp)
  have hrh : notDot rh = true := natRepr_mem_notDot c rh hrhmem
  rcases name_decomp s with ⟨hsfx, hstm⟩ | ⟨tw, a, hr, htw, ha, htwmem, hsfx, hstm⟩
  · -- empty suffix: the name is the stem
    have hcd : (candName (pstem s) (psuffix s) c).data
        = s.data ++ '_' :: (natRepr c).data := by
      rw [hc, hstm, hsfx, List.append_nil]
    have hcrev : (candName (pstem s) (psuffix s) c).data.reverse
        = ((natRepr c).data.reverse ++ ['_']) ++ s.data.reverse := by
      rw [hcd]
      simp
    have hall : ∀ x ∈ (natRepr c).data.reverse ++ ['_'], notDot x = true := by
      intro x hx
      rcases List.mem_append.1 hx with hx | hx
      · exact natRepr_mem_notDot c x (List.mem_reverse.1 hx)
      · simp at hx
        subst hx
        decide
    constructor
    · apply String.ext
      show suffixData (candName (pstem s) (psuffix s) c).data = suffixData s.data
      rw [suffixData, suffixData, hcrev, dropWhile_all_append notDot _ _ hall,
        takeWhile_all_append notDot _ _ hall]
      by_cases hdw : s.data.reverse.dropWhile notDot = []
      · rw [if_pos hdw, if_pos hdw]
      · have hsfx2 : suffixData s.data = [] := hsfx
        have hcond : s.data.reverse.takeWhile notDot = []
            ∨ (s.data.reverse.dropWhile notDot).tail = [] := by
          by_contra hcc
          have hval : suffixData s.data = '.' :: (s.data.reverse.takeWhile notDot).reverse := by
            rw [suffixData, if_neg hdw, if_neg hcc]
          rw [hsfx2] at hval
          exact absurd hval.symm (by simp)
        have htwne : s.data.reverse.takeWhile notDot ≠ [] := by
          intro htw0
          obtain ⟨x, aa, hxa⟩ : ∃ x aa, s.data.reverse.dropWhile notDot = x :: aa := by
            cases hcase : s.data.reverse.dropWhile notDot with
            | nil => exact absurd hcase hdw
            | cons x aa => exact ⟨x, aa, rfl⟩
          have hx : x = '.' := dropWhile_head_dot _ x aa hxa
          have hrall : s.data.reverse = x :: aa := by
            conv_lhs =>
              rw [← List.takeWhile_append_dropWhile (p := notDot) (l := s.data.reverse)]
            rw [htw0, hxa, List.nil_append]
          have hbad : s.data.getLast? = some '.' := by
            rw [← List.head?_reverse, hrall, hx]
            rfl
          exact hlast hbad
        have htail : (s.data.reverse.dropWhile notDot).tail = [] := hcond.resolve_left htwne
        rw [if_neg hdw, if_neg hdw, if_pos (Or.inr htail), if_pos (Or.inr htail)]
    · rw [← List.head?_reverse, hcrev, hrv]
      simp only [List.cons_append, List.head?_cons]
      intro hcon
      have hrh2 : rh = '.' := by simpa using hcon
      rw [hrh2] at hrh
      exact absurd hrh (by decide)
  · -- non-empty suffix `'.' :: tw.reverse`, stem `a.reverse`
    have hcd : (candName (pstem s) (psuffix s) c).data
        = a.reverse ++ '_' :: ((natRepr c).data ++ '.' :: tw.reverse) := by
      rw [hc, hstm, hsfx]
    have hcrev : (candName (pstem s) (psuffix s) c).data.reverse
        = tw ++ '.' :: ((natRepr c).data.reverse ++ '_' :: a) := by
      rw [hcd]
      simp
    obtain ⟨th, tt, htv⟩ : ∃ th tt, tw = th :: tt := by
      cases tw with
      | nil => exact absurd rfl htw
      | cons th tt => exact ⟨th, tt, rfl⟩
    constructor
    · apply String.ext
      show suffixData (candName (pstem s) (psuffix s) c).data = suffixData s.data
      have hsfx2 : suffixData s.data = '.' :: tw.reverse := hsfx
      rw [hsfx2]
      rw [suffixData, hcrev, takeWhile_all_append notDot _ _ htwmem,
        dropWhile_all_append notDot _ _ htwmem]
      have hto : List.takeWhile notDot ('.' :: ((natRepr c).data.reverse ++ '_' :: a)) = [] := by
        rw [List.takeWhile_cons, if_neg (by decide)]
      have hdo : List.dropWhile notDot ('.' :: ((natRepr c).data.reverse ++ '_' :: a))
          = '.' :: ((natRepr c).data.reverse ++ '_' :: a) := by
        rw [List.dropWhile_cons, if_neg (by decide)]
      rw [hto, hdo, List.append_nil]
      rw [if_neg (by simp), if_neg ?hcnd]
      case hcnd =>
        push_neg
        exact ⟨by rw [htv]; simp, by simp⟩
    · rw [← List.head?_reverse, hcrev, htv]
      simp only [List.cons_append, List.head?_cons]
      intro hcon
      have hth : th = '.' := by simpa using hcon
      have := htwmem th (by rw [htv]; simp)
      rw [hth] at this
      exact absurd this (by decide)

/-! ## The sync pass (`sync_sort`)

`sync_sort` snapshots every file under the configured destinations
(`_collect_all_files`), then calls `sort_file` on each in turn, counting a
file as re-routed exactly when `dest.parent != f.parent`; a `sort_file`
exception is caught and the loop continues.  The filesystem is a list of
files, each with a stable identifier, its directory, its current name and
its intrinsic stat facts (byte size, creation year); `sort_file` recomputes
the metadata fresh from the current name at every attempt. -/

/-- One file of the modelled filesystem. -/
structure SFile where
  id : Nat
  parent : PPath
  name : String
  st_size : Nat
  birthYear : Nat
deriving DecidableEq

/-- The metadata `get_file_metadata` reads off the file right now. -/
def SFile.meta (f : SFile) : FileMeta := get_file_metadata f.name f.st_size f.birthYear

/-- One iteration of the `sync_sort` loop, on the file with identifier
`fid`: classify with fresh metadata, compute the destination directory (no
base directory — sync uses the global config paths), `safe_move` there (the
occupied names of the destination directory include the file itself when it
already sits there), and report it re-routed when the destination directory
differs from the file's previous parent.  A missing file or a `sort_file`
error leaves the state unchanged and reports nothing. -/
def syncStep (routing : Routing) (st : List SFile) (fid : Nat) : List SFile × Bool :=
  match st.find? (fun g => g.id = fid) with
  | none => (st, false)
  | some f =>
    match sort_file_dest routing f.meta none with
    | none => (st, false)
    | some (_, d) =>
      (st.map (fun g => if g.id = f.id
          then { g with
                 parent := d
                 name := safe_move_name
                   ((st.filter (fun g2 => g2.parent = d)).map (fun g2 => g2.name)) f.name }
          else g),
        decide (¬(d = f.parent)))

/-- The loop of `sync_sort` over the snapshot of file identifiers,
accumulating the re-routed count. -/
def syncGo (routing : Routing) : List SFile → Nat → List Nat → List SFile × Nat
  | st, acc, [] => (st, acc)
  | st, acc, fid :: rest =>
    syncGo routing (syncStep routing st fid).1
      (acc + (if (syncStep routing st fid).2 then 1 else 0)) rest

/-- A whole `sync_sort` pass: snapshot every file, process each once. -/
def syncRun (routing : Routing) (st : List SFile) : List SFile × Nat :=
  syncGo routing st 0 (st.map (fun f => f.id))

theorem find_id_of_mem (st : List SFile) (hids : (st.map (fun g => g.id)).Nodup)
    (f : SFile) (hmem : f ∈ st) : st.find? (fun g => g.id = f.id) = some f := by
  induction st with
  | nil => exact absurd hmem (List.not_mem_nil f)
  | cons h t ih =>
    simp only [List.map_cons, List.nodup_cons] at hids
    rcases List.mem_cons.1 hmem with rfl | hmem2
    · rw [List.find?_cons_of_pos _ (by simp)]
    · by_cases hid : h.id = f.id
      · exact absurd (by rw [hid]; exact List.mem_map.2 ⟨f, hmem2, rfl⟩) hids.1
      · rw [List.find?_cons_of_neg _ (by simpa using hid)]
        exact ih hids.2 hmem2

/-- The routing of the in-place example: only `Others` is configured. -/
def othersRoutingEx : Routing := [("Others", { path := ⟨true, ["o"]⟩ })]

/-- A file already sitting in the `Others` destination. -/
def exFile : SFile := ⟨0, ⟨true, ["o"]⟩, "a.txt", 0, 2020⟩

/-- Claim C10: for a file whose parent directory already equals the planned
destination directory, `safe_move` does not leave the file where it is — the
candidate `dest_dir / src.name` is the source itself and exists, so the
collision loop renames it in place to `<stem>_1<suffix>` or the next free
suffix; and since the destination directory equals the old parent, the sync
pass does not report the file as re-routed. -/
theorem C10_sync_renames_in_place (routing : Routing) (st : List SFile) (f : SFile)
    (hmem : f ∈ st) (hids : (st.map (fun g => g.id)).Nodup)
    (cat : String) (d : PPath)
    (hdest : sort_file_dest routing f.meta none = some (cat, d))
    (hpar : f.parent = d) :
    (syncStep routing st f.id).2 = false
    ∧ ∃ g, g ∈ (syncStep routing st f.id).1 ∧ g.id = f.id ∧ g.parent = f.parent
        ∧ g.name ≠ f.name
        ∧ ∃ n, 1 ≤ n ∧ g.name = candName (pstem f.name) (psuffix f.name) n
            ∧ (∀ k, 1 ≤ k → k < n →
                candName (pstem f.name) (psuffix f.name) k
                  ∈ (st.filter (fun g2 => g2.parent = d)).map (fun g2 => g2.name)) := by
  have hfind := find_id_of_mem st hids f hmem
  have hex : f.name ∈ (st.filter (fun g2 => g2.parent = d)).map (fun g2 => g2.name) :=
    List.mem_map.2 ⟨f, List.mem_filter.2 ⟨hmem, by simp [hpar]⟩, rfl⟩
  have hspec := findFreeFrom_spec
    ((st.filter (fun g2 => g2.parent = d)).map (fun g2 => g2.name))
    (pstem f.name) (psuffix f.name)
    (((st.filter (fun g2 => g2.parent = d)).map (fun g2 => g2.name)).length + 1) 1
    (exists_free_cand _ (pstem f.name) (psuffix f.name))
  have hsm : safe_move_name
      ((st.filter (fun g2 => g2.parent = d)).map (fun g2 => g2.name)) f.name
      = candName (pstem f.name) (psuffix f.name)
          (findFreeFrom ((st.filter (fun g2 => g2.parent = d)).map (fun g2 => g2.name))
            (pstem f.name) (psuffix f.name)
            (((st.filter (fun g2 => g2.parent = d)).map (fun g2 => g2.name)).length + 1) 1) := by
    rw [safe_move_name, if_pos hex]
  have hstep : syncStep routing st f.id
      = (st.map (fun g => if g.id = f.id
          then { g with
                 parent := d
                 name := safe_move_name
                   ((st.filter (fun g2 => g2.parent = d)).map (fun g2 => g2.name)) f.name }
          else g),
        decide (¬(d = f.parent))) := by
    rw [syncStep, hfind]
    simp only [hdest]
  have hne : safe_move_name
      ((st.filter (fun g2 => g2.parent = d)).map (fun g2 => g2.name)) f.name ≠ f.name := by
    rw [hsm]
    intro hcon
    exact hspec.1 (by rw [hcon]; exact hex)
  constructor
  · rw [hstep]
    simp [hpar]
  · refine ⟨{ f with
        parent := d
        name := safe_move_name
          ((st.filter (fun g2 => g2.parent = d)).map (fun g2 => g2.name)) f.name }, ?_, by simp,
      by simp [hpar], by simpa using hne, ?_⟩
    · rw [hstep]
      exact List.mem_map.2 ⟨f, hmem, by simp⟩
    · refine ⟨_, hspec.2.1, by simpa using hsm, fun k hk1 hk2 => hspec.2.2 k hk1 hk2⟩

/-- Witness for C10 at a concrete input: one file `a.txt` resting in the
configured `Others` directory is renamed to `a_1.txt` in place and not
reported. -/
theorem C10_witness :
    (syncStep othersRoutingEx [exFile] exFile.id).2 = false
    ∧ ∃ g, g ∈ (syncStep othersRoutingEx [exFile] exFile.id).1 ∧ g.id = exFile.id
        ∧ g.parent = exFile.parent
        ∧ g.name ≠ exFile.name
        ∧ ∃ n, 1 ≤ n ∧ g.name = candName (pstem exFile.name) (psuffix exFile.name) n
            ∧ (∀ k, 1 ≤ k → k < n →
                candName (pstem exFile.name) (psuffix exFile.name) k
                  ∈ ([exFile].filter (fun g2 => g2.parent = ⟨true, ["o"]⟩)).map
                      (fun g2 => g2.name)) :=
  C10_sync_renames_in_place othersRoutingEx [exFile] exFile (by simp) (by simp)
    "Others" ⟨true, ["o"]⟩ (by decide) (by decide)

/-- The trailing-dot file of the C5 counterexample, resting in the `Others`
destination. -/
def dotFile : SFile := ⟨0, ⟨true, ["o"]⟩, "a.", 0, 2020⟩

/-- A routing whose first category catches exactly the extension `._1` the
collision rename of `a.` produces. -/
def trailingDotRouting : Routing :=
  [("Weird", { path := ⟨true, ["w"]⟩, extensions := ["._1"] }),
   ("Others", { path := ⟨true, ["o"]⟩ })]

/-- Claim C5, counterexample: sync is not idempotent.  A file named `a.`
(empty `pathlib` suffix) classifies to `Others` and is renamed in place to
`a._1` by the collision loop; the rename changes its suffix to `._1`, so the
second run re-classifies it to `Weird` and reports one re-routed file even
though nothing external changed between the runs. -/
theorem C5_counterexample_trailing_dot :
    (syncRun trailingDotRouting [dotFile]).2 = 0
    ∧ (syncRun trailingDotRouting (syncRun trailingDotRouting [dotFile]).1).2 = 1 := by
  refine ⟨by decide, by decide⟩

/-! ## Idempotence of sync for dot-free names -/

/-- The file rests in the directory `sort_file` would route it to (vacuous
when classification fails). -/
def Settled (routing : Routing) (f : SFile) : Prop :=
  ∀ cat d, sort_file_dest routing f.meta none = some (cat, d) → f.parent = d

theorem syncStep_of_none_find {routing : Routing} {st : List SFile} {fid : Nat}
    (h : st.find? (fun g => g.id = fid) = none) :
    syncStep routing st fid = (st, false) := by
  rw [syncStep, h]

theorem syncStep_of_none_dest {routing : Routing} {st : List SFile} {fid : Nat} {f : SFile}
    (hf : st.find? (fun g => g.id = fid) = some f)
    (hd : sort_file_dest routing f.meta none = none) :
    syncStep routing st fid = (st, false) := by
  rw [syncStep, hf]
  simp only [hd]

theorem syncStep_of_some {routing : Routing} {st : List SFile} {fid : Nat} {f : SFile}
    {cat : String} {d : PPath}
    (hf : st.find? (fun g => g.id = fid) = some f)
    (hd : sort_file_dest routing f.meta none = some (cat, d)) :
    syncStep routing st fid
      = (st.map (fun g => if g.id = f.id
          then { g with
                 parent := d
                 name := safe_move_name
                   ((st.filter (fun g2 => g2.parent = d)).map (fun g2 => g2.name)) f.name }
          else g),
        decide (¬(d = f.parent))) := by
  rw [syncStep, hf]
  simp only [hd]

/-- Renaming by `safe_move` keeps the metadata of a file whose name does not
end in a dot, and keeps that property of the name. -/
theorem safe_move_name_meta (s : String) (existing : List String)
    (hg : s.data.getLast? ≠ some '.') :
    psuffix (safe_move_name existing s) = psuffix s
    ∧ (safe_move_name existing s).data.getLast? ≠ some '.' := by
  unfold safe_move_name
  split_ifs with hmem
  · exact psuffix_candName s _ hg
  · exact ⟨rfl, hg⟩

theorem syncStep_ids (routing : Routing) (st : List SFile) (fid : Nat) :
    (syncStep routing st fid).1.map (fun g => g.id) = st.map (fun g => g.id) := by
  cases hf : st.find? (fun g => g.id = fid) with
  | none => rw [syncStep_of_none_find hf]
  | some f =>
    cases hd : sort_file_dest routing f.meta none with
    | none => rw [syncStep_of_none_dest hf hd]
    | some cd =>
      rcases cd with ⟨cat, d⟩
      rw [syncStep_of_some hf hd]
      simp only [List.map_map]
      apply List.map_congr_left
      intro g hg
      by_cases h : g.id = f.id <;> simp [h]

theorem syncStep_mem_of_ne (routing : Routing) (st : List SFile) (fid : Nat)
    (g : SFile) (hg : g ∈ st) (hne : g.id ≠ fid) :
    g ∈ (syncStep routing st fid).1 := by
  cases hf : st.find? (fun g => g.id = fid) with
  | none =>
    rw [syncStep_of_none_find hf]
    exact hg
  | some f =>
    have hfid : f.id = fid := by simpa using List.find?_some hf
    cases hd : sort_file_dest routing f.meta none with
    | none =>
      rw [syncStep_of_none_dest hf hd]
      exact hg
    | some cd =>
      rcases cd with ⟨cat, d⟩
      rw [syncStep_of_some hf hd]
      refine List.mem_map.2 ⟨g, hg, ?_⟩
      rw [if_neg (by rw [hfid]; exact hne)]

theorem syncStep_good (routing : Routing) (st : List SFile) (fid : Nat)
    (hgood : ∀ f ∈ st, f.name.data.getLast? ≠ some '.') :
    ∀ g ∈ (syncStep routing st fid).1, g.name.data.getLast? ≠ some '.' := by
  intro g hgm
  cases hf : st.find? (fun g => g.id = fid) with
  | none =>
    rw [syncStep_of_none_find hf] at hgm
    exact hgood g hgm
  | some f =>
    have hfm : f ∈ st := List.mem_of_find?_eq_some hf
    cases hd : sort_file_dest routing f.meta none with
    | none =>
      rw [syncStep_of_none_dest hf hd] at hgm
      exact hgood g hgm
    | some cd =>
      rcases cd with ⟨cat, d⟩
      rw [syncStep_of_some hf hd] at hgm
      rcases List.mem_map.1 hgm with ⟨g0, hg0, rfl⟩
      by_cases h : g0.id = f.id
      · rw [if_pos h]
        exact (safe_move_name_meta f.name _ (hgood f hfm)).2
      · rw [if_neg h]
        exact hgood g0 hg0

/-- The updated entry a firing sync step leaves for the selected file. -/
theorem syncStep_updated (routing : Routing) (st : List SFile) (fid : Nat)
    (f : SFile) (cat : String) (d : PPath)
    (hf : st.find? (fun g => g.id = fid) = some f)
    (hd : sort_file_dest routing f.meta none = some (cat, d)) :
    ({ f with
       parent := d
       name := safe_move_name
         ((st.filter (fun g2 => g2.parent = d)).map (fun g2 => g2.name)) f.name } : SFile)
      ∈ (syncStep routing st fid).1 := by
  rw [syncStep_of_some hf hd]
  exact List.mem_map.2 ⟨f, List.mem_of_find?_eq_some hf, by rw [if_pos rfl]⟩

/-- The metadata of the updated entry equals the metadata the step
classified, provided the name does not end in a dot. -/
theorem syncStep_updated_meta (f : SFile) (d : PPath) (existing : List String)
    (hg : f.name.data.getLast? ≠ some '.') :
    ({ f with parent := d, name := safe_move_name existing f.name } : SFile).meta = f.meta := by
  have h := (safe_move_name_meta f.name existing hg).1
  simp [SFile.meta, get_file_metadata, h]

theorem syncGo_ids (routing : Routing) :
    ∀ ids : List Nat, ∀ st acc,
      (syncGo routing st acc ids).1.map (fun g => g.id) = st.map (fun g => g.id) := by
  intro ids
  induction ids with
  | nil => intro st acc; rfl
  | cons fid rest ih =>
    intro st acc
    rw [syncGo, ih, syncStep_ids]

theorem syncGo_mem_of_not_mem (routing : Routing) :
    ∀ ids : List Nat, ∀ st acc g, g ∈ st → g.id ∉ ids →
      g ∈ (syncGo routing st acc ids).1 := by
  intro ids
  induction ids with
  | nil => intro st acc g hg _; exact hg
  | cons fid rest ih =>
    intro st acc g hg hni
    rw [syncGo]
    exact ih _ _ g (syncStep_mem_of_ne routing st fid g hg (by simp at hni; exact hni.1))
      (by simp at hni; exact hni.2)

theorem syncGo_good (routing : Routing) :
    ∀ ids : List Nat, ∀ st acc, (∀ f ∈ st, f.name.data.getLast? ≠ some '.') →
      ∀ g ∈ (syncGo routing st acc ids).1, g.name.data.getLast? ≠ some '.' := by
  intro ids
  induction ids with
  | nil => intro st acc h g hgm; exact h g hgm
  | cons fid rest ih =>
    intro st acc h
    rw [syncGo]
    exact ih _ _ (syncStep_good routing st fid h)

/-- The state component of the sync loop, acc-free (the re-routed counter
never influences the moves). -/
def syncGoState (routing : Routing) : List SFile → List Nat → List SFile
  | st, [] => st
  | st, fid :: rest => syncGoState routing (syncStep routing st fid).1 rest

theorem syncGo_fst (routing : Routing) :
    ∀ ids : List Nat, ∀ st acc, (syncGo routing st acc ids).1 = syncGoState routing st ids := by
  intro ids
  induction ids with
  | nil => intro st acc; rfl
  | cons fid rest ih => intro st acc; rw [syncGo, syncGoState, ih]

theorem syncGoState_ids (routing : Routing) :
    ∀ ids : List Nat, ∀ st,
      (syncGoState routing st ids).map (fun g => g.id) = st.map (fun g => g.id) := by
  intro ids st
  rw [← syncGo_fst routing ids st 0, syncGo_ids]

theorem syncGoState_mem_of_not_mem (routing : Routing) :
    ∀ ids : List Nat, ∀ st g, g ∈ st → g.id ∉ ids → g ∈ syncGoState routing st ids := by
  intro ids st g hg hni
  rw [← syncGo_fst routing ids st 0]
  exact syncGo_mem_of_not_mem routing ids st 0 g hg hni

theorem syncGoState_good (routing : Routing) :
    ∀ ids : List Nat, ∀ st, (∀ f ∈ st, f.name.data.getLast? ≠ some '.') →
      ∀ g ∈ syncGoState routing st ids, g.name.data.getLast? ≠ some '.' := by
  intro ids st h
  rw [← syncGo_fst routing ids st 0]
  exact syncGo_good routing ids st 0 h

/-- After the sync loop has processed an identifier, the file carrying it
rests in the directory its (fresh) classification selects. -/
theorem syncGoState_settles (routing : Routing) :
    ∀ ids : List Nat, ids.Nodup →
      ∀ st, (st.map (fun g => g.id)).Nodup →
        (∀ f ∈ st, f.name.data.getLast? ≠ some '.') →
        ∀ g ∈ syncGoState routing st ids, g.id ∈ ids → Settled routing g := by
  intro ids
  induction ids with
  | nil =>
    intro _ st _ _ g _ hgi
    exact absurd hgi (List.not_mem_nil _)
  | cons fid rest ih =>
    intro hnd st hids hgood g hgm hgi
    simp only [List.nodup_cons] at hnd
    rw [syncGoState] at hgm
    have hids2 : ((syncStep routing st fid).1.map (fun g => g.id)).Nodup := by
      rw [syncStep_ids]
      exact hids
    rcases List.mem_cons.1 hgi with hgi1 | hgi2
    · -- g carries the identifier processed at this step
      have hnodupFinal :
          ((syncGoState routing (syncStep routing st fid).1 rest).map (fun g => g.id)).Nodup := by
        rw [syncGoState_ids, syncStep_ids]
        exact hids
      cases hf : st.find? (fun g2 => g2.id = fid) with
      | none =>
        exfalso
        have hnone : ∀ x ∈ st, ¬(x.id = fid) := by
          intro x hx
          have := List.find?_eq_none.1 hf x hx
          simpa using this
        have hgin : g.id ∈ st.map (fun g => g.id) := by
          rw [← syncStep_ids routing st fid, ← syncGoState_ids routing rest]
          exact List.mem_map.2 ⟨g, hgm, rfl⟩
        rcases List.mem_map.1 hgin with ⟨x, hx, hxid⟩
        exact hnone x hx (by rw [hxid, hgi1])
      | some f =>
        have hfid : f.id = fid := by simpa using List.find?_some hf
        have hfm : f ∈ st := List.mem_of_find?_eq_some hf
        cases hd : sort_file_dest routing f.meta none with
        | none =>
          have hfs : f ∈ syncGoState routing (syncStep routing st fid).1 rest := by
            apply syncGoState_mem_of_not_mem
            · rw [syncStep_of_none_dest hf hd]
              exact hfm
            · rw [hfid]
              exact hnd.1
          have hgf : g = f :=
            List.inj_on_of_nodup_map hnodupFinal hgm hfs (by rw [hgi1, hfid])
          subst hgf
          intro cat2 d2 hd2
          rw [hd] at hd2
          exact absurd hd2 (by simp)
        | some cd =>
          rcases cd with ⟨cat, d⟩
          have hupd := syncStep_updated routing st fid f cat d hf hd
          have hfs : ({ f with
              parent := d
              name := safe_move_name
                ((st.filter (fun g2 => g2.parent = d)).map (fun g2 => g2.name)) f.name } : SFile)
              ∈ syncGoState routing (syncStep routing st fid).1 rest := by
            apply syncGoState_mem_of_not_mem _ _ _ _ hupd
            simpa [hfid] using hnd.1
          have hgf := List.inj_on_of_nodup_map hnodupFinal hgm hfs (by simp [hgi1, hfid])
          subst hgf
          intro cat2 d2 hd2
          rw [syncStep_updated_meta f d _ (hgood f hfm), hd] at hd2
          simp only [Option.some.injEq, Prod.mk.injEq] at hd2
          show d = d2
          exact hd2.2
    · -- g's identifier is processed later
      exact ih hnd.2 _ hids2 (syncStep_good routing st fid hgood) g hgm hgi2

/-- A sync pass over an already-settled, dot-free state reports nothing:
every step either fails classification (caught, not reported) or moves the
file within its own directory (`dest.parent == f.parent`). -/
theorem syncGo_count (routing : Routing) :
    ∀ ids : List Nat, ∀ st acc,
      (st.map (fun g => g.id)).Nodup →
      (∀ f ∈ st, f.name.data.getLast? ≠ some '.') →
      (∀ f ∈ st, Settled routing f) →
      (syncGo routing st acc ids).2 = acc := by
  intro ids
  induction ids with
  | nil => intro st acc _ _ _; rfl
  | cons fid rest ih =>
    intro st acc hids hgood hset
    rw [syncGo]
    cases hf : st.find? (fun g2 => g2.id = fid) with
    | none =>
      rw [syncStep_of_none_find hf]
      simpa using ih st acc hids hgood hset
    | some f =>
      have hfm : f ∈ st := List.mem_of_find?_eq_some hf
      cases hd : sort_file_dest routing f.meta none with
      | none =>
        rw [syncStep_of_none_dest hf hd]
        simpa using ih st acc hids hgood hset
      | some cd =>
        rcases cd with ⟨cat, d⟩
        have hpar : f.parent = d := hset f hfm cat d hd
        have hrep : (syncStep routing st fid).2 = false := by
          rw [syncStep_of_some hf hd]
          simp [hpar]
        have hids2 : ((syncStep routing st fid).1.map (fun g => g.id)).Nodup := by
          rw [syncStep_ids]
          exact hids
        have hgood2 := syncStep_good routing st fid hgood
        have hset2 : ∀ g ∈ (syncStep routing st fid).1, Settled routing g := by
          intro g hgm
          rw [syncStep_of_some hf hd] at hgm
          rcases List.mem_map.1 hgm with ⟨g0, hg0, rfl⟩
          by_cases hid : g0.id = f.id
          · have hg0f : g0 = f := List.inj_on_of_nodup_map hids hg0 hfm hid
            subst hg0f
            rw [if_pos hid]
            intro cat2 d2 hd2
            rw [syncStep_updated_meta g0 d _ (hgood g0 hg0), hd] at hd2
            simp only [Option.some.injEq, Prod.mk.injEq] at hd2
            show d = d2
            exact hd2.2
          · rw [if_neg hid]
            exact hset g0 hg0
        rw [hrep]
        simpa using ih (syncStep routing st fid).1 acc hids2 hgood2 hset2

/-- Claim C5 (amended): running sync twice with no external filesystem
changes reports zero re-routed files on the second run, provided no file's
name ends in a dot.  (The counterexample `C5_counterexample_trailing_dot`
shows the unrestricted claim false: the in-place collision rename of a
trailing-dot name changes its extension and hence its classification.)
After the first pass every file rests in the directory its fresh
classification selects, so the second pass only renames files within their
directories — `dest.parent` equals `f.parent` — and reports none of them. -/
theorem C5_sync_idempotent_amended (routing : Routing) (st : List SFile)
    (hids : (st.map (fun g => g.id)).Nodup)
    (hgood : ∀ f ∈ st, f.name.data.getLast? ≠ some '.') :
    (syncRun routing (syncRun routing st).1).2 = 0 := by
  have hst1eq : (syncRun routing st).1 = syncGoState routing st (st.map (fun f => f.id)) := by
    rw [syncRun, syncGo_fst]
  have hids1 : ((syncRun routing st).1.map (fun g => g.id)).Nodup := by
    rw [hst1eq, syncGoState_ids]
    exact hids
  have hgood1 : ∀ f ∈ (syncRun routing st).1, f.name.data.getLast? ≠ some '.' := by
    rw [hst1eq]
    exact syncGoState_good routing _ st hgood
  have hset1 : ∀ f ∈ (syncRun routing st).1, Settled routing f := by
    rw [hst1eq]
    intro f hf
    apply syncGoState_settles routing (st.map (fun f => f.id)) hids st hids hgood f hf
    rw [← syncGoState_ids routing (st.map (fun f => f.id)) st]
    exact List.mem_map.2 ⟨f, hf, rfl⟩
  rw [syncRun]
  exact syncGo_count routing _ _ 0 hids1 hgood1 hset1

/-- Witness for the amended C5 at a concrete input: one `a.txt` in the
configured `Others` directory, synced twice, reports zero re-routes on the
second run. -/
theorem C5_amended_witness :
    (syncRun othersRoutingEx (syncRun othersRoutingEx [exFile]).1).2 = 0 :=
  C5_sync_idempotent_amended othersRoutingEx [exFile] (by decide) (by decide)

/-! ## The watch loop (`auto.py`)

`SortingHandler._process` runs on every `FileCreatedEvent` (its `src_path`)
and `FileMovedEvent` (its `dest_path`): it returns early when the path is
not a regular file or the name starts with `.` or `~`, sleeps the settle
delay, returns early when the path no longer exists, then calls `sort_file`
(whose own `is_file` guard raises on a non-regular file, caught by the
handler).  The two filesystem observations — before and after the delay —
are passed explicitly. -/

/-- One observation of the watched path. -/
structure FSObs where
  present : Bool
  isFile : Bool
deriving DecidableEq

/-- Python `name.startswith(c)` for a single character. -/
def startsWithChar (s : String) (c : Char) : Bool := s.data.head? == some c

/-- `SortingHandler._process`: `some (category, destDir)` when a move is
attempted, `none` when the event is dropped or `sort_file` raised (the
handler catches and reports it, moving nothing).  `m` is the metadata the
file has after the settle delay. -/
def watch_process (routing : Routing) (name : String) (m : FileMeta)
    (pre post : FSObs) : Option (String × PPath) :=
  if pre.isFile = false then none
  else if startsWithChar name '.' || startsWithChar name '~' then none
  else if post.present = false then none
  else if post.isFile = false then none
  else sort_file_dest routing m none

/-- Claim C6: the watch loop classifies and moves a file only if, once the
settle delay has elapsed, the path still exists as a regular file and its
name starts with neither `.` nor `~`; when that verification fails the event
is dropped and no move is attempted — in particular a file named
`.tmp_partial` is never moved. -/
theorem C6_watch_verification (routing : Routing) (name : String) (m : FileMeta)
    (pre post : FSObs) :
    (∀ mv, watch_process routing name m pre post = some mv →
        post.present = true ∧ post.isFile = true
          ∧ (startsWithChar name '.' || startsWithChar name '~') = false)
    ∧ ((startsWithChar name '.' || startsWithChar name '~') = true →
        watch_process routing name m pre post = none)
    ∧ (¬(post.present = true ∧ post.isFile = true) →
        watch_process routing name m pre post = none)
    ∧ watch_process routing ".tmp_partial" m pre post = none := by
  have hdrop : ∀ nm : String, (startsWithChar nm '.' || startsWithChar nm '~') = true →
      watch_process routing nm m pre post = none := by
    intro nm hname
    unfold watch_process
    split_ifs <;> simp_all
  refine ⟨?_, hdrop name, ?_, hdrop ".tmp_partial" (by decide)⟩
  · intro mv hmv
    unfold watch_process at hmv
    split_ifs at hmv with h1 h2 h3 h4
    exact ⟨by simpa using h3, by simpa using h4, by simpa using h2⟩
  · intro hpost
    unfold watch_process
    split_ifs <;> simp_all

/-! ## Custom-target routing (`interactive_sort`, choice 2)

The interactive batch's custom-target mode pre-creates
`custom_target / category_name` for each key of `config["routing"]`, then
routes every file to `custom_target / category` (with a year subfolder when
`config["routing"].get(category, {}).get("year", False)`), never reading
the rule's configured `path`; a directory entry goes under
`custom_target / "Folders"`. -/

/-- The subfolders pre-created inside the user-chosen root before any move:
exactly one per key of the routing mapping. -/
def customPrecreated (custom_target : PPath) (routing : Routing) : List PPath :=
  routing.map (fun p => custom_target.child p.1)

/-- The destination directory `_sort_single_file` computes in custom-target
mode. -/
def customDest (custom_target : PPath) (routing : Routing) (m : FileMeta) : PPath :=
  if ((lookupRule routing (match_category m routing)).map (fun r => r.year)).getD false
  then (custom_target.child (match_category m routing)).child (natRepr m.year)
  else custom_target.child (match_category m routing)

/-- The destination of a directory entry in custom-target mode. -/
def customDirDest (custom_target : PPath) : PPath := custom_target.child "Folders"

theorem _rule_matches_path_irrelevant (m : FileMeta) (r : CategoryRule) (p : PPath) :
    _rule_matches m { r with path := p } = _rule_matches m r := rfl

theorem match_category_mapPaths (m : FileMeta) (f : String → PPath) :
    ∀ routing : Routing,
      match_category m (routing.map (fun p => (p.1, { p.2 with path := f p.1 })))
        = match_category m routing := by
  intro routing
  induction routing with
  | nil => rfl
  | cons hd tl ih =>
    rcases hd with ⟨c, r⟩
    by_cases hres : c = "Others" ∨ c = "Folders"
    · simp only [List.map_cons, match_category]
      rw [if_pos hres, if_pos hres, ih]
    · by_cases hm : _rule_matches m r = true
      · simp only [List.map_cons, match_category]
        rw [if_neg hres, if_neg hres, if_pos hm,
          if_pos (by rw [_rule_matches_path_irrelevant]; exact hm)]
      · simp only [List.map_cons, match_category]
        rw [if_neg hres, if_neg hres, if_neg hm,
          if_neg (by rw [_rule_matches_path_irrelevant]; exact hm), ih]

theorem lookupRule_year_mapPaths (f : String → PPath) (cat : String) :
    ∀ routing : Routing,
      ((lookupRule (routing.map (fun p => (p.1, { p.2 with path := f p.1 }))) cat).map
          (fun r => r.year)).getD false
        = ((lookupRule routing cat).map (fun r => r.year)).getD false := by
  intro routing
  induction routing with
  | nil => rfl
  | cons hd tl ih =>
    rcases hd with ⟨c, r⟩
    by_cases hc : c = cat
    · simp only [List.map_cons, lookupRule]
      rw [List.find?_cons_of_pos _ (by simpa using hc),
        List.find?_cons_of_pos _ (by simpa using hc)]
      simp
    · simp only [List.map_cons, lookupRule] at ih ⊢
      rw [List.find?_cons_of_neg _ (by simpa using hc),
        List.find?_cons_of_neg _ (by simpa using hc)]
      exact ih

/-- A routing lacking an `"Others"` key. -/
def noOthersRouting : Routing :=
  [("Images", { path := ⟨true, ["img"]⟩, extensions := [".jpg"] })]

/-- The example custom-target root. -/
def ctEx : PPath := ⟨true, ["ct"]⟩

/-- Claim C9, counterexample: the pre-created subfolders are exactly one per
key of the routing mapping — no implicit `Others` subfolder is created when
`"Others"` is not itself a configured key, even though a file (here
`notes.txt`) still classifies to `Others` and is routed to the un-created
`Others` subfolder (which only comes into being at move time via
`safe_move`'s `mkdir`). -/
theorem C9_counterexample_no_others :
    customPrecreated ctEx noOthersRouting = [PPath.child ctEx "Images"]
    ∧ PPath.child ctEx "Others" ∉ customPrecreated ctEx noOthersRouting
    ∧ match_category (get_file_metadata "notes.txt" 0 2020) noOthersRouting = "Others"
    ∧ customDest ctEx noOthersRouting (get_file_metadata "notes.txt" 0 2020)
        = PPath.child ctEx "Others" := by
  refine ⟨by decide, by decide, by decide, by decide⟩

/-- Claim C9 (amended): in custom-target routing the categories' configured
paths are ignored (changing every rule's path changes no destination);
before any move one subfolder per key of the routing mapping is pre-created
inside the user-chosen root — so an `Others` subfolder exactly when
`"Others"` is itself configured, otherwise it is only created lazily at move
time; every file is routed into the root's subfolder named by its
classified category, with the year subfolder still honored when the
category's rule has the year flag; and every directory entry is moved under
the root's `Folders` subfolder. -/
theorem C9_custom_target_amended (ct : PPath) (routing : Routing) (m : FileMeta) :
    (customPrecreated ct routing = routing.map (fun p => ct.child p.1))
    ∧ ("Others" ∈ routing.map Prod.fst → ct.child "Others" ∈ customPrecreated ct routing)
    ∧ (∀ pathsOf : String → PPath,
        customDest ct (routing.map (fun p => (p.1, { p.2 with path := pathsOf p.1 }))) m
          = customDest ct routing m)
    ∧ (customDest ct routing m =
        (if ((lookupRule routing (match_category m routing)).map (fun r => r.year)).getD false
          then (ct.child (match_category m routing)).child (natRepr m.year)
          else ct.child (match_category m routing)))
    ∧ customDirDest ct = ct.child "Folders" := by
  refine ⟨rfl, ?_, ?_, rfl, rfl⟩
  · intro h
    rcases List.mem_map.1 h with ⟨p, hp, hpc⟩
    exact List.mem_map.2 ⟨p, hp, by rw [hpc]⟩
  · intro pathsOf
    rw [customDest, customDest, match_category_mapPaths, lookupRule_year_mapPaths]

/-! ## Batch error handling (`interactive_sort`, non-revert branches)

A file entry goes through `_sort_single_file`, whose whole body sits in a
`try/except`: a failure prints a warning, contributes 0 to the moved count
and the loop continues.  A directory entry (without flatten) is moved by
`sort_folder` — default routing — or `safe_move` — custom routing — with no
`try/except` around it, so an exception there propagates out of the entry
loop and aborts the whole batch. -/

/-- A top-level entry of the target directory. -/
inductive BEntry
  | bfile (name : String) (st_size : Nat) (year : Nat)
  | bdir (name : String)
deriving DecidableEq

/-- `_sort_single_file` in default routing: total; a `sort_file` error is
caught and counts as zero moved. -/
def sortSingleFile (routing : Routing) (base : PPath) (name : String)
    (st_size year : Nat) : Nat :=
  match sort_file_dest routing (get_file_metadata name st_size year) (some base) with
  | some _ => 1
  | none => 0

/-- `sort_folder`: its destination, or the `KeyError` it raises when
`"Folders"` is not configured. -/
def sort_folder_dest (routing : Routing) (base : PPath) : Except String PPath :=
  match lookupRule routing "Folders" with
  | none => Except.error "No Folders category defined in config.json"
  | some r => Except.ok (if r.path.absolute then r.path else base.joinRel r.path)

/-- The entry loop of `interactive_sort` in default routing without
flatten: file entries are guarded per item, directory entries are not — a
`sort_folder` exception ends the loop with the error, leaving the remaining
entries unprocessed. -/
def interactive_default_pass (routing : Routing) (base : PPath) :
    List BEntry → Nat → Except String Nat
  | [], moved => Except.ok moved
  | BEntry.bfile name sz yr :: rest, moved =>
    interactive_default_pass routing base rest (moved + sortSingleFile routing base name sz yr)
  | BEntry.bdir _ :: rest, moved =>
    match sort_folder_dest routing base with
    | Except.error e => Except.error e
    | Except.ok _ => interactive_default_pass routing base rest (moved + 1)

/-- Claim C4 (the intended per-item error contract) is violated by the code:
with no `"Folders"` category configured, a directory entry's `sort_folder`
raises `KeyError`, nothing catches it at the item boundary, and the batch
aborts — the file entry after the directory is never processed.  By
contrast, a batch of file entries alone never aborts, because
`_sort_single_file` catches its own errors. -/
theorem C4_directory_error_aborts_batch :
    interactive_default_pass noOthersRouting ⟨true, ["t"]⟩
        [BEntry.bdir "sub", BEntry.bfile "x.jpg" 0 2020] 0
      = Except.error "No Folders category defined in config.json"
    ∧ (∀ routing : Routing, ∀ base : PPath, ∀ entries : List BEntry, ∀ moved : Nat,
        (∀ e ∈ entries, ∀ nm : String, e ≠ BEntry.bdir nm) →
        ∃ n, interactive_default_pass routing base entries moved = Except.ok n) := by
  constructor
  · rfl
  · intro routing base entries
    induction entries with
    | nil => exact fun moved _ => ⟨moved, rfl⟩
    | cons e rest ih =>
      intro moved hnd
      cases e with
      | bfile name sz yr =>
        exact ih (moved + sortSingleFile routing base name sz yr)
          (fun e2 he2 nm => hnd e2 (by simp [he2]) nm)
      | bdir nm => exact absurd rfl (hnd (BEntry.bdir nm) (by simp) nm)

/-! ## Round trip: default-routing sort followed by revert

The batch sort (choice 1, no flatten) classifies every top-level file of the
target directory relative to the target and moves every top-level directory
intact into the `Folders` category; the revert (choice 3) first moves every
item of `target/Folders` to a chosen destination, then walks the remaining
tree — skipping the destination's subtree and the already-processed
`Folders` subtree — and moves every file it finds to that destination.

Entries are atomic: a directory entry stands for the directory with its
whole contents (an intact `shutil.move` relocates them together).  The
model keeps each entry's directory, name and stat facts; moves go through
the same `safe_move` collision naming. -/

inductive EKind
  | file
  | dir
deriving DecidableEq

/-- One filesystem entry of the round-trip model. -/
structure REntry where
  id : Nat
  kind : EKind
  dir : PPath
  name : String
  st_size : Nat
  birthYear : Nat
deriving DecidableEq

def REntry.meta (e : REntry) : FileMeta := get_file_metadata e.name e.st_size e.birthYear

/-- The names already occupied in directory `d`. -/
def namesAt (st : List REntry) (d : PPath) : List String :=
  (st.filter (fun e => e.dir = d)).map (fun e => e.name)

/-- `safe_move` of the entry with identifier `i` into directory `d`. -/
def moveEntry (st : List REntry) (i : Nat) (d : PPath) : List REntry :=
  st.map (fun e => if e.id = i
    then { e with dir := d, name := safe_move_name (namesAt st d) e.name }
    else e)

/-- `base == p or base in p.parents`, the skip test of the revert walk:
`base` is `p` itself or an ancestor, syntactically. -/
def underB (base p : PPath) : Bool :=
  (base.absolute == p.absolute) && base.parts.isPrefixOf p.parts

theorem isPrefixOf_iff_exists :
    ∀ a b : List String, a.isPrefixOf b = true ↔ ∃ t, b = a ++ t := by
  intro a
  induction a with
  | nil =>
    intro b
    simp [List.isPrefixOf]
  | cons x xs ih =>
    intro b
    cases b with
    | nil =>
      simp [List.isPrefixOf]
    | cons y ys =>
      simp only [List.isPrefixOf, Bool.and_eq_true, beq_iff_eq]
      constructor
      · rintro ⟨rfl, h⟩
        obtain ⟨t, rfl⟩ := (ih ys).1 h
        exact ⟨t, rfl⟩
      · rintro ⟨t, ht⟩
        rw [List.cons_append] at ht
        injection ht with h1 h2
        exact ⟨h1.symm, (ih ys).2 ⟨t, h2⟩⟩

theorem underB_iff (base p : PPath) :
    underB base p = true ↔ base.absolute = p.absolute ∧ ∃ t, p.parts = base.parts ++ t := by
  simp only [underB, Bool.and_eq_true, beq_iff_eq, isPrefixOf_iff_exists]

theorem underB_self (p : PPath) : underB p p = true := by
  rw [underB_iff]
  exact ⟨rfl, [], by simp⟩

theorem underB_append (b : PPath) (t : List String) :
    underB b ⟨b.absolute, b.parts ++ t⟩ = true := by
  rw [underB_iff]
  exact ⟨rfl, t, rfl⟩

theorem underB_child_self (b : PPath) (x : String) : underB b (b.child x) = true :=
  underB_append b [x]

/-- `b/x` is never above a path of the form `b ++ h :: t` with `h ≠ x`. -/
theorem underB_child_head_ne (b : PPath) (x h : String) (t : List String) (hne : h ≠ x) :
    underB (b.child x) ⟨b.absolute, b.parts ++ h :: t⟩ = false := by
  by_contra hcon
  have h2 : underB (b.child x) ⟨b.absolute, b.parts ++ h :: t⟩ = true := by
    cases hcase : underB (b.child x) ⟨b.absolute, b.parts ++ h :: t⟩ with
    | false => exact absurd hcase hcon
    | true => rfl
  rw [underB_iff] at h2
  obtain ⟨_, u, hu⟩ := h2
  simp only [PPath.child, List.append_assoc] at hu
  have := List.append_cancel_left hu
  rw [List.singleton_append] at this
  injection this with h1 _
  exact hne h1

/-- A child of `b` is never `b` itself nor above it. -/
theorem underB_child_base (b : PPath) (x : String) : underB (b.child x) b = false := by
  by_contra hcon
  have h2 : underB (b.child x) b = true := by
    cases hcase : underB (b.child x) b with
    | false => exact absurd hcase hcon
    | true => rfl
  rw [underB_iff] at h2
  obtain ⟨_, u, hu⟩ := h2
  simp only [PPath.child, List.append_assoc] at hu
  have hlen := congrArg List.length hu
  simp at hlen

theorem moveEntry_ids (st : List REntry) (i : Nat) (d : PPath) :
    (moveEntry st i d).map (fun e => e.id) = st.map (fun e => e.id) := by
  rw [moveEntry, List.map_map]
  apply List.map_congr_left
  intro e he
  by_cases h : e.id = i <;> simp [h]

theorem moveEntry_mem_of_ne (st : List REntry) (i : Nat) (d : PPath)
    (e : REntry) (he : e ∈ st) (hne : e.id ≠ i) : e ∈ moveEntry st i d := by
  refine List.mem_map.2 ⟨e, he, ?_⟩
  rw [if_neg hne]

theorem moveEntry_cases (st : List REntry) (i : Nat) (d : PPath) :
    ∀ g ∈ moveEntry st i d, ∃ e, e ∈ st ∧
      ((e.id ≠ i ∧ g = e)
        ∨ (e.id = i
            ∧ g = { e with dir := d, name := safe_move_name (namesAt st d) e.name })) := by
  intro g hg
  rcases List.mem_map.1 hg with ⟨e, he, hge⟩
  by_cases h : e.id = i
  · rw [if_pos h] at hge
    exact ⟨e, he, Or.inr ⟨h, hge.symm⟩⟩
  · rw [if_neg h] at hge
    exact ⟨e, he, Or.inl ⟨h, hge.symm⟩⟩

/-- Classification never returns the reserved `"Folders"` name: the loop
skips it and the fallback is `"Others"`. -/
theorem match_category_ne_folders (m : FileMeta) :
    ∀ routing : Routing, match_category m routing ≠ "Folders" := by
  intro routing
  induction routing with
  | nil => simp [match_category]
  | cons hd tl ih =>
    rcases hd with ⟨c, r⟩
    by_cases hres : c = "Others" ∨ c = "Folders"
    · simpa [match_category, hres] using ih
    · by_cases hm : _rule_matches m r = true
      · simp only [match_category]
        rw [if_neg hres, if_pos hm]
        intro hcon
        exact hres (Or.inr hcon)
      · simpa [match_category, hres, hm] using ih

theorem lookupRule_mem {routing : Routing} {c : String} {r : CategoryRule}
    (h : lookupRule routing c = some r) : (c, r) ∈ routing := by
  rw [lookupRule] at h
  cases hf : routing.find? (fun p => p.1 = c) with
  | none => rw [hf] at h; exact absurd h (by simp)
  | some pr =>
    rw [hf] at h
    have hmem := List.mem_of_find?_eq_some hf
    have hfst : pr.1 = c := by simpa using List.find?_some hf
    have hsnd : pr.2 = r := by simpa using h
    have : pr = (c, r) := by
      rcases pr with ⟨a, b⟩
      simp_all
    rw [← this]
    exact hmem

/-- The destination chain `path / year? / type?` in one shot. -/
theorem destChain (p : PPath) (y t : Bool) (ys ts : String) :
    (if t then (if y then p.child ys else p).child ts
      else if y then p.child ys else p)
      = ⟨p.absolute, p.parts ++ ((if y then [ys] else []) ++ (if t then [ts] else []))⟩ := by
  cases y <;> cases t <;> simp [PPath.child]

/-- The success path of one entry of the default-routing batch loop,
without flatten: a file goes through the try/except-guarded
`_sort_single_file` (`sort_file` with the target as base, errors skipped);
a directory through `sort_folder`.  This helper ignores the `sort_folder`
error; the faithful loop body is `sortEntryStepE` below, and
`sortPassE_eq_ok` proves the two passes agree whenever `"Folders"` is
configured (the error is the `"Folders"` key lookup failing, nothing
else). -/
def sortEntryStep (routing : Routing) (target : PPath) (st : List REntry)
    (e0 : REntry) : List REntry :=
  match e0.kind with
  | EKind.file =>
    match sort_file_dest routing e0.meta (some target) with
    | none => st
    | some (_, d) => moveEntry st e0.id d
  | EKind.dir =>
    match sort_folder_dest routing target with
    | Except.error _ => st
    | Except.ok d => moveEntry st e0.id d

/-- One entry of the default-routing batch loop with the source's error
behaviour: the directory branch (manual.py lines 131-139) is NOT wrapped in
try/except, so a `sort_folder` error propagates and aborts the whole batch
(see `C4_directory_error_aborts_batch`); file items are guarded per item. -/
def sortEntryStepE (routing : Routing) (target : PPath)
    (st : Except String (List REntry)) (e0 : REntry) : Except String (List REntry) :=
  match st with
  | Except.error m => Except.error m
  | Except.ok s =>
    match e0.kind with
    | EKind.file =>
      match sort_file_dest routing e0.meta (some target) with
      | none => Except.ok s
      | some (_, d) => Except.ok (moveEntry s e0.id d)
    | EKind.dir =>
      match sort_folder_dest routing target with
      | Except.error m => Except.error m
      | Except.ok d => Except.ok (moveEntry s e0.id d)

/-- The default-routing batch pass on the success path: fold the loop over
the snapshot of the target directory's entries. -/
def sortPass (routing : Routing) (target : PPath) (st : List REntry) : List REntry :=
  (st.filter (fun e => e.dir = target)).foldl (sortEntryStep routing target) st

/-- The default-routing batch pass with the source's error behaviour: an
unguarded `sort_folder` error aborts the batch. -/
def sortPassE (routing : Routing) (target : PPath) (st : List REntry) :
    Except String (List REntry) :=
  (st.filter (fun e => e.dir = target)).foldl (sortEntryStepE routing target)
    (Except.ok st)

/-- When `sort_folder` succeeds (the `"Folders"` category is configured),
the faithful abort-propagating batch pass completes and agrees with the
success-path pass: the only uncaught exception of the loop is the
`"Folders"` key lookup, which does not depend on the entry. -/
theorem sortPassE_eq_ok (routing : Routing) (target : PPath) (d0 : PPath)
    (hfd : sort_folder_dest routing target = Except.ok d0) :
    ∀ todo s : List REntry,
      List.foldl (sortEntryStepE routing target) (Except.ok s) todo
        = Except.ok (List.foldl (sortEntryStep routing target) s todo) := by
  intro todo
  induction todo with
  | nil => intro s; rfl
  | cons e rest ih =>
    intro s
    rw [List.foldl_cons, List.foldl_cons]
    have hstep : sortEntryStepE routing target (Except.ok s) e
        = Except.ok (sortEntryStep routing target s e) := by
      cases hk : e.kind with
      | file =>
        simp only [sortEntryStepE, sortEntryStep, hk]
        cases hd : sort_file_dest routing e.meta (some target) with
        | none => rfl
        | some p =>
          rcases p with ⟨c, d⟩
          rfl
      | dir =>
        simp only [sortEntryStepE, sortEntryStep, hk, hfd]
    rw [hstep]
    exact ih (sortEntryStep routing target s e)

/-- Phase 1 of revert: move every item of `target/Folders` to the
destination (skipping an item that IS the destination); per-item errors are
caught (and cannot arise in the model). -/
def revertPhase1 (target dest : PPath) (st : List REntry) : List REntry :=
  ((st.filter (fun e => e.dir = PPath.child target "Folders")).map (fun e => e.id)).foldl
    (fun s i =>
      match s.find? (fun e => e.id = i) with
      | none => s
      | some e =>
        if (⟨e.dir.absolute, e.dir.parts ++ [e.name]⟩ : PPath) = dest then s
        else moveEntry s i dest)
    st

/-- Phase 2 of revert: the `os.walk` over the target, with `dirs.clear()`
pruning at the destination's subtree and at the `Folders` subtree (the
latter only when the `Folders` directory exists), moves every file found to
the destination. -/
def revertPhase2 (target dest : PPath) (hasFolders : Bool) (st : List REntry) : List REntry :=
  ((st.filter (fun e => e.kind = EKind.file ∧ underB target e.dir = true
      ∧ underB dest e.dir = false
      ∧ ¬(hasFolders = true ∧ underB (PPath.child target "Folders") e.dir = true))).map
      (fun e => e.id)).foldl
    (fun s i =>
      match s.find? (fun e => e.id = i) with
      | none => s
      | some _ => moveEntry s i dest)
    st

/-- The whole revert (choice 3): the `Folders` phase, then the walk; the
`Folders` directory exists at walk time exactly when the sort created it,
i.e. when it held items at revert start. -/
def revertPass (target dest : PPath) (st : List REntry) : List REntry :=
  revertPhase2 target dest
    (!(st.filter (fun e => e.dir = PPath.child target "Folders")).isEmpty)
    (revertPhase1 target dest st)

/-- Shape of a file's sort destination under a routing whose paths are
relative, non-empty and not `Folders`-headed: strictly inside the target,
and not inside `target/Folders`. -/
theorem sort_file_dest_under (routing : Routing) (target : PPath) (m : FileMeta)
    (cat : String) (d : PPath)
    (hrel : ∀ cr ∈ routing, (cr : String × CategoryRule).2.path.absolute = false)
    (hne : ∀ cr ∈ routing, (cr : String × CategoryRule).2.path.parts ≠ [])
    (hnf : ∀ cr ∈ routing, (cr : String × CategoryRule).1 ≠ "Folders" →
        (cr : String × CategoryRule).2.path.parts.head? ≠ some "Folders")
    (hd : sort_file_dest routing m (some target) = some (cat, d)) :
    underB target d = true ∧ underB (PPath.child target "Folders") d = false := by
  rw [sort_file_dest] at hd
  cases hlr : lookupRule routing (match_category m routing) with
  | none =>
    rw [hlr] at hd
    exact absurd hd (by simp)
  | some rule =>
    rw [hlr] at hd
    simp only [Option.map_some', Option.some.injEq, destChain] at hd
    have hpair := lookupRule_mem hlr
    have hrelr := hrel _ hpair
    have hner := hne _ hpair
    have hnfr := hnf _ hpair (match_category_ne_folders m routing)
    obtain ⟨h, tl, hht⟩ : ∃ h tl, rule.path.parts = h :: tl := by
      cases hc : rule.path.parts with
      | nil => exact absurd hc hner
      | cons h tl => exact ⟨h, tl, rfl⟩
    have hhne : h ≠ "Folders" := by
      intro hcon
      apply hnfr
      rw [hht, hcon]
      rfl
    have habs : (⟨rule.path.absolute,
        rule.path.parts ++ ((if rule.year then [natRepr m.year] else [])
          ++ (if rule.file_type then [typeFolder m.extension] else []))⟩ : PPath).absolute
          = false := hrelr
    rw [if_neg (by rw [habs]; simp)] at hd
    simp only [Prod.mk.injEq] at hd
    have hdd : d = ⟨target.absolute, target.parts
        ++ (h :: (tl ++ ((if rule.year then [natRepr m.year] else [])
          ++ (if rule.file_type then [typeFolder m.extension] else []))))⟩ := by
      rw [← hd.2]
      simp [PPath.joinRel, hht]
    constructor
    · rw [hdd]
      exact underB_append target _
    · rw [hdd]
      exact underB_child_head_ne target "Folders" h _ hhne

/-- Where the batch sort leaves an entry: a directory sits in
`target/Folders`; a file sits inside the target but outside
`target/Folders` — or was a pre-existing file of the (outside) revert
destination. -/
def Placed (target dest : PPath) (e : REntry) : Prop :=
  match e.kind with
  | EKind.dir => e.dir = PPath.child target "Folders"
  | EKind.file =>
    (underB target e.dir = true ∧ underB (PPath.child target "Folders") e.dir = false)
      ∨ e.dir = dest

theorem sortPass_fold_spec (routing : Routing) (target dest : PPath)
    (hfol : ∃ fr, lookupRule routing "Folders" = some fr ∧ fr.path = ⟨false, ["Folders"]⟩)
    (hrel : ∀ cr ∈ routing, (cr : String × CategoryRule).2.path.absolute = false)
    (hnonempty : ∀ cr ∈ routing, (cr : String × CategoryRule).2.path.parts ≠ [])
    (hnf : ∀ cr ∈ routing, (cr : String × CategoryRule).1 ≠ "Folders" →
        (cr : String × CategoryRule).2.path.parts.head? ≠ some "Folders") :
    ∀ todo : List REntry, (todo.map (fun e => e.id)).Nodup →
      ∀ st, (st.map (fun e => e.id)).Nodup →
        (∀ e0 ∈ todo, e0 ∈ st) →
        (∀ e0 ∈ todo, e0.dir = target) →
        (∀ e ∈ st, Placed target dest e ∨ e ∈ todo) →
        ((List.foldl (sortEntryStep routing target) st todo).map (fun e => e.id)
            = st.map (fun e => e.id)
          ∧ ∀ e ∈ List.foldl (sortEntryStep routing target) st todo, Placed target dest e) := by
  intro todo
  induction todo with
  | nil =>
    intro _ st _ _ _ hplace
    refine ⟨rfl, fun e he => ?_⟩
    rcases hplace e he with h | h
    · exact h
    · exact absurd h (List.not_mem_nil e)
  | cons e0 rest ih =>
    intro hnd st hids hsub hdirs hplace
    simp only [List.map_cons, List.nodup_cons] at hnd
    have he0 : e0 ∈ st := hsub e0 (by simp)
    have he0dir : e0.dir = target := hdirs e0 (by simp)
    -- the step's new state, by the entry's kind
    have hmain : ((sortEntryStep routing target st e0).map (fun e => e.id)
          = st.map (fun e => e.id))
        ∧ (∀ e1 ∈ rest, e1 ∈ sortEntryStep routing target st e0)
        ∧ (∀ e ∈ sortEntryStep routing target st e0, Placed target dest e ∨ e ∈ rest) := by
      have hrest_ne : ∀ e1 ∈ rest, e1.id ≠ e0.id := by
        intro e1 h1 hcon
        exact hnd.1 (List.mem_map.2 ⟨e1, h1, hcon⟩)
      have hkeep : ∀ (d : PPath), (∀ g, g = ({ e0 with
            dir := d
            name := safe_move_name (namesAt st d) e0.name } : REntry) → Placed target dest g) →
          ((moveEntry st e0.id d).map (fun e => e.id) = st.map (fun e => e.id))
          ∧ (∀ e1 ∈ rest, e1 ∈ moveEntry st e0.id d)
          ∧ (∀ e ∈ moveEntry st e0.id d, Placed target dest e ∨ e ∈ rest) := by
        intro d hplaced
        refine ⟨moveEntry_ids st e0.id d, ?_, ?_⟩
        · intro e1 h1
          exact moveEntry_mem_of_ne st e0.id d e1 (hsub e1 (by simp [h1])) (hrest_ne e1 h1)
        · intro e he
          rcases moveEntry_cases st e0.id d e he with ⟨old, hold, hcases⟩
          rcases hcases with ⟨hne2, heq⟩ | ⟨hide, heq⟩
          · rw [heq]
            rcases hplace old hold with h | h
            · exact Or.inl h
            · rcases List.mem_cons.1 h with h3 | h2
              · exact absurd (by rw [h3] : old.id = e0.id) hne2
              · exact Or.inr h2
          · have holde : old = e0 := List.inj_on_of_nodup_map hids hold he0 hide
            rw [heq, holde]
            exact Or.inl (hplaced _ rfl)
      cases hk : e0.kind with
      | file =>
        rw [sortEntryStep, hk]
        cases hd : sort_file_dest routing e0.meta (some target) with
        | none =>
          refine ⟨rfl, fun e1 h1 => hsub e1 (by simp [h1]), ?_⟩
          intro e he
          rcases hplace e he with h | h
          · exact Or.inl h
          · rcases List.mem_cons.1 h with rfl | h2
            · refine Or.inl ?_
              rw [Placed, hk, he0dir]
              exact Or.inl ⟨underB_self target, underB_child_base target "Folders"⟩
            · exact Or.inr h2
        | some cd =>
          rcases cd with ⟨cat, d⟩
          apply hkeep d
          intro g hg
          subst hg
          rw [Placed]
          simp only [hk]
          exact Or.inl (sort_file_dest_under routing target e0.meta cat d hrel hnonempty hnf hd)
      | dir =>
        rw [sortEntryStep, hk]
        obtain ⟨fr, hfr, hfrp⟩ := hfol
        have hsfd : sort_folder_dest routing target
            = Except.ok (PPath.child target "Folders") := by
          rw [sort_folder_dest, hfr]
          simp [hfrp, PPath.joinRel, PPath.child]
        rw [hsfd]
        apply hkeep (PPath.child target "Folders")
        intro g hg
        subst hg
        rw [Placed]
        simp only [hk]
    rw [List.foldl_cons]
    have hids2 : ((sortEntryStep routing target st e0).map (fun e => e.id)).Nodup := by
      rw [hmain.1]
      exact hids
    have ihres := ih hnd.2 (sortEntryStep routing target st e0) hids2 hmain.2.1
      (fun e1 h1 => hdirs e1 (by simp [h1])) hmain.2.2
    exact ⟨by rw [ihres.1, hmain.1], ihres.2⟩

theorem PPath.child_ne_self (b : PPath) (x : String) : b.child x ≠ b := by
  intro h
  have := congrArg (fun p => p.parts.length) h
  simp [PPath.child] at this

theorem revertPhase1_fold (target dest : PPath) (st0 : List REntry)
    (hdest2 : ¬(underB (PPath.child target "Folders") dest = true
        ∧ dest ≠ PPath.child target "Folders")) :
    ∀ todo : List Nat, todo.Nodup →
      ∀ s : List REntry, (s.map (fun e => e.id)).Nodup →
        (∀ i ∈ todo, ∀ e ∈ s, e.id = i → e.dir = PPath.child target "Folders") →
        (∀ e ∈ s, (e.dir = dest ∨ (e ∈ st0 ∧ e.dir ≠ PPath.child target "Folders"))
            ∨ e.id ∈ todo) →
        ((List.foldl (fun s i =>
              match s.find? (fun e => e.id = i) with
              | none => s
              | some e =>
                if (⟨e.dir.absolute, e.dir.parts ++ [e.name]⟩ : PPath) = dest then s
                else moveEntry s i dest) s todo).map (fun e => e.id) = s.map (fun e => e.id)
          ∧ ∀ e ∈ List.foldl (fun s i =>
              match s.find? (fun e => e.id = i) with
              | none => s
              | some e =>
                if (⟨e.dir.absolute, e.dir.parts ++ [e.name]⟩ : PPath) = dest then s
                else moveEntry s i dest) s todo,
              e.dir = dest ∨ (e ∈ st0 ∧ e.dir ≠ PPath.child target "Folders")) := by
  intro todo
  induction todo with
  | nil =>
    intro _ s _ _ hdone
    refine ⟨rfl, fun e he => ?_⟩
    rcases hdone e he with h | h
    · exact h
    · exact absurd h (List.not_mem_nil _)
  | cons i rest ih =>
    intro hnd s hids hpend hdone
    simp only [List.nodup_cons] at hnd
    rw [List.foldl_cons]
    cases hf : s.find? (fun e => e.id = i) with
    | none =>
      simp only [hf]
      have hnone : ∀ e ∈ s, e.id ≠ i := by
        intro e he
        have := List.find?_eq_none.1 hf e he
        simpa using this
      have hdone2 : ∀ e ∈ s, (e.dir = dest
          ∨ (e ∈ st0 ∧ e.dir ≠ PPath.child target "Folders")) ∨ e.id ∈ rest := by
        intro e he
        rcases hdone e he with h | h
        · exact Or.inl h
        · rcases List.mem_cons.1 h with h2 | h2
          · exact absurd h2 (hnone e he)
          · exact Or.inr h2
      exact ih hnd.2 s hids (fun i2 h2 e he hei => hpend i2 (by simp [h2]) e he hei) hdone2
    | some e =>
      simp only [hf]
      have hei : e.id = i := by simpa using List.find?_some hf
      have hem : e ∈ s := List.mem_of_find?_eq_some hf
      have hedir : e.dir = PPath.child target "Folders" := hpend i (by simp) e hem hei
      rw [if_neg ?hskip]
      case hskip =>
        intro hcon
        apply hdest2
        have hpath : (⟨e.dir.absolute, e.dir.parts ++ [e.name]⟩ : PPath)
            = (PPath.child target "Folders").child e.name := by
          rw [hedir]
          rfl
        rw [hpath] at hcon
        constructor
        · rw [← hcon]
          exact underB_child_self _ _
        · rw [← hcon]
          exact PPath.child_ne_self _ _
      have hids2 : ((moveEntry s i dest).map (fun e => e.id)).Nodup := by
        rw [moveEntry_ids]
        exact hids
      have hpend2 : ∀ i2 ∈ rest, ∀ e2 ∈ moveEntry s i dest, e2.id = i2 →
          e2.dir = PPath.child target "Folders" := by
        intro i2 h2 e2 he2 hei2
        rcases moveEntry_cases s i dest e2 he2 with ⟨old, hold, hcases⟩
        rcases hcases with ⟨_, heq⟩ | ⟨hide, heq⟩
        · rw [heq]
          exact hpend i2 (by simp [h2]) old hold (by rw [← heq, hei2])
        · exfalso
          apply hnd.1
          have hi2 : i = i2 := by
            rw [← hide, ← hei2, heq]
          rw [hi2]
          exact h2
      have hdone2 : ∀ e2 ∈ moveEntry s i dest, (e2.dir = dest
          ∨ (e2 ∈ st0 ∧ e2.dir ≠ PPath.child target "Folders")) ∨ e2.id ∈ rest := by
        intro e2 he2
        rcases moveEntry_cases s i dest e2 he2 with ⟨old, hold, hcases⟩
        rcases hcases with ⟨hne2, heq⟩ | ⟨hide, heq⟩
        · rw [heq]
          rcases hdone old hold with h | h
          · exact Or.inl h
          · rcases List.mem_cons.1 h with h2 | h2
            · exact absurd h2 hne2
            · exact Or.inr h2
        · rw [heq]
          exact Or.inl (Or.inl rfl)
      have ihres := ih hnd.2 (moveEntry s i dest) hids2 hpend2 hdone2
      exact ⟨by rw [ihres.1, moveEntry_ids], ihres.2⟩

theorem revertPhase2_fold (dest : PPath) :
    ∀ todo : List Nat, todo.Nodup →
      ∀ s : List REntry, (s.map (fun e => e.id)).Nodup →
        (∀ e ∈ s, e.dir = dest ∨ e.id ∈ todo) →
        ((List.foldl (fun s i =>
              match s.find? (fun e => e.id = i) with
              | none => s
              | some _ => moveEntry s i dest) s todo).map (fun e => e.id)
            = s.map (fun e => e.id)
          ∧ ∀ e ∈ List.foldl (fun s i =>
              match s.find? (fun e => e.id = i) with
              | none => s
              | some _ => moveEntry s i dest) s todo, e.dir = dest) := by
  intro todo
  induction todo with
  | nil =>
    intro _ s _ hdone
    refine ⟨rfl, fun e he => ?_⟩
    rcases hdone e he with h | h
    · exact h
    · exact absurd h (List.not_mem_nil _)
  | cons i rest ih =>
    intro hnd s hids hdone
    simp only [List.nodup_cons] at hnd
    rw [List.foldl_cons]
    cases hf : s.find? (fun e => e.id = i) with
    | none =>
      simp only [hf]
      have hnone : ∀ e ∈ s, e.id ≠ i := by
        intro e he
        have := List.find?_eq_none.1 hf e he
        simpa using this
      have hdone2 : ∀ e ∈ s, e.dir = dest ∨ e.id ∈ rest := by
        intro e he
        rcases hdone e he with h | h
        · exact Or.inl h
        · rcases List.mem_cons.1 h with h2 | h2
          · exact absurd h2 (hnone e he)
          · exact Or.inr h2
      exact ih hnd.2 s hids hdone2
    | some e =>
      simp only [hf]
      have hids2 : ((moveEntry s i dest).map (fun e => e.id)).Nodup := by
        rw [moveEntry_ids]
        exact hids
      have hdone2 : ∀ e2 ∈ moveEntry s i dest, e2.dir = dest ∨ e2.id ∈ rest := by
        intro e2 he2
        rcases moveEntry_cases s i dest e2 he2 with ⟨old, hold, hcases⟩
        rcases hcases with ⟨hne2, heq⟩ | ⟨hide, heq⟩
        · rw [heq]
          rcases hdone old hold with h | h
          · exact Or.inl h
          · rcases List.mem_cons.1 h with h2 | h2
            · exact absurd h2 hne2
            · exact Or.inr h2
        · rw [heq]
          exact Or.inl rfl
      have ihres := ih hnd.2 (moveEntry s i dest) hids2 hdone2
      exact ⟨by rw [ihres.1, moveEntry_ids], ihres.2⟩

/-- Claim C8 (amended): a default-routing batch sort of the target's
top-level entries followed by a revert into a chosen destination completes
without the `sort_folder` abort (the batch really equals the success-path
pass, `sortPassE = Except.ok sortPass`) and restores the whole entry set
into that destination directory: the identifier multiset is preserved
exactly (a bijection between the original and the reverted set, names
aside — collision renaming is ignored), every intact `Folders` item and
every sorted file ends with the destination as its directory.  This holds
only under the stated provisos, each one necessary in the source: the
routing's category paths are relative (an absolute path sends files
outside the target, where the revert walk never looks) and non-empty; the
`Folders` category is configured at exactly the relative path `Folders`
(revert's phase 1 hardcodes `target/Folders`; configured elsewhere, the
intact directories are stranded) and no other category path is
`Folders`-headed; no top-level directory is named `Folders` or shares its
name with a category path head (otherwise the sort routes files into a
directory it later moves intact, breaking the atomic-directory model); and
the destination is not strictly inside `target/Folders` and does not sit
at or strictly above the resting directory of any sorted file — in
particular it is not the target itself or an ancestor of it when any file
was sorted, since the revert walk prunes the destination's whole
subtree. -/
theorem C8_sort_revert_roundtrip (routing : Routing) (target dest : PPath)
    (init : List REntry)
    (hids : (init.map (fun e => e.id)).Nodup)
    (hshape : ∀ e ∈ init, e.dir = target
        ∨ (e.kind = EKind.file ∧ e.dir = dest ∧ underB target dest = false))
    (hdirname : ∀ e ∈ init, e.kind = EKind.dir → e.name ≠ "Folders")
    (halias : ∀ e ∈ init, e.kind = EKind.dir →
        ∀ cr ∈ routing, (cr : String × CategoryRule).2.path.parts.head? ≠ some e.name)
    (hfol : ∃ fr, lookupRule routing "Folders" = some fr ∧ fr.path = ⟨false, ["Folders"]⟩)
    (hrel : ∀ cr ∈ routing, (cr : String × CategoryRule).2.path.absolute = false)
    (hnonempty : ∀ cr ∈ routing, (cr : String × CategoryRule).2.path.parts ≠ [])
    (hnf : ∀ cr ∈ routing, (cr : String × CategoryRule).1 ≠ "Folders" →
        (cr : String × CategoryRule).2.path.parts.head? ≠ some "Folders")
    (hdest2 : ¬(underB (PPath.child target "Folders") dest = true
        ∧ dest ≠ PPath.child target "Folders"))
    (hdest3 : ∀ e ∈ sortPass routing target init, e.kind = EKind.file →
        underB dest e.dir = true → e.dir = dest) :
    (sortPassE routing target init = Except.ok (sortPass routing target init))
    ∧ ((revertPass target dest (sortPass routing target init)).map (fun e => e.id)
        = init.map (fun e => e.id))
    ∧ ∀ e ∈ revertPass target dest (sortPass routing target init), e.dir = dest := by
  rcases hfol with ⟨fr, hlk, hfrp⟩
  have habs : fr.path.absolute = false := by rw [hfrp]
  have hfd : sort_folder_dest routing target = Except.ok (target.joinRel fr.path) := by
    simp [sort_folder_dest, hlk, habs]
  have htodonodup : ((init.filter (fun e => e.dir = target)).map (fun e => e.id)).Nodup :=
    List.Sublist.nodup (List.Sublist.map _ (List.filter_sublist init)) hids
  have hsorted := sortPass_fold_spec routing target dest ⟨fr, hlk, hfrp⟩ hrel hnonempty hnf
    (init.filter (fun e => e.dir = target)) htodonodup init hids
    (fun e0 h0 => List.mem_of_mem_filter h0)
    (fun e0 h0 => by simpa using (List.mem_filter.1 h0).2)
    (fun e he => by
      by_cases hdir : e.dir = target
      · exact Or.inr (List.mem_filter.2 ⟨he, by simpa using hdir⟩)
      · rcases hshape e he with h | ⟨hk, hd, _⟩
        · exact absurd h hdir
        · refine Or.inl ?_
          simp only [Placed, hk]
          exact Or.inr hd)
  have hS1ids : (sortPass routing target init).map (fun e => e.id)
      = init.map (fun e => e.id) := hsorted.1
  have hS1place : ∀ e ∈ sortPass routing target init, Placed target dest e := hsorted.2
  have hS1nodup : ((sortPass routing target init).map (fun e => e.id)).Nodup := by
    rw [hS1ids]
    exact hids
  -- phase 1
  have hitemsnodup : (((sortPass routing target init).filter
      (fun e => e.dir = PPath.child target "Folders")).map (fun e => e.id)).Nodup :=
    List.Sublist.nodup (List.Sublist.map _ (List.filter_sublist _)) hS1nodup
  have hph1 := revertPhase1_fold target dest (sortPass routing target init) hdest2
    (((sortPass routing target init).filter
      (fun e => e.dir = PPath.child target "Folders")).map (fun e => e.id))
    hitemsnodup (sortPass routing target init) hS1nodup
    (fun i hi e he hei => by
      rcases List.mem_map.1 hi with ⟨e2, he2, hei2⟩
      have he2m := List.mem_of_mem_filter he2
      have he2d : e2.dir = PPath.child target "Folders" := by
        simpa using (List.mem_filter.1 he2).2
      have : e = e2 := List.inj_on_of_nodup_map hS1nodup he he2m (by rw [hei, ← hei2])
      rw [this]
      exact he2d)
    (fun e he => by
      by_cases hdir : e.dir = PPath.child target "Folders"
      · refine Or.inr (List.mem_map.2 ⟨e, List.mem_filter.2 ⟨he, by simpa using hdir⟩, rfl⟩)
      · exact Or.inl (Or.inr ⟨he, hdir⟩))
  have hph1ids : (revertPhase1 target dest (sortPass routing target init)).map (fun e => e.id)
      = (sortPass routing target init).map (fun e => e.id) := hph1.1
  have hph1done : ∀ e ∈ revertPhase1 target dest (sortPass routing target init),
      e.dir = dest ∨ (e ∈ sortPass routing target init
        ∧ e.dir ≠ PPath.child target "Folders") := hph1.2
  have hph1nodup : ((revertPhase1 target dest (sortPass routing target init)).map
      (fun e => e.id)).Nodup := by
    rw [hph1ids]
    exact hS1nodup
  -- phase 2
  have hph2nodup : (((revertPhase1 target dest (sortPass routing target init)).filter
      (fun e => e.kind = EKind.file ∧ underB target e.dir = true
        ∧ underB dest e.dir = false
        ∧ ¬((!((sortPass routing target init).filter
              (fun e => e.dir = PPath.child target "Folders")).isEmpty) = true
            ∧ underB (PPath.child target "Folders") e.dir = true))).map
      (fun e => e.id)).Nodup :=
    List.Sublist.nodup (List.Sublist.map _ (List.filter_sublist _)) hph1nodup
  have hph2 := revertPhase2_fold dest
    (((revertPhase1 target dest (sortPass routing target init)).filter
      (fun e => e.kind = EKind.file ∧ underB target e.dir = true
        ∧ underB dest e.dir = false
        ∧ ¬((!((sortPass routing target init).filter
              (fun e => e.dir = PPath.child target "Folders")).isEmpty) = true
            ∧ underB (PPath.child target "Folders") e.dir = true))).map
      (fun e => e.id))
    hph2nodup (revertPhase1 target dest (sortPass routing target init)) hph1nodup
    (fun e he => by
      rcases hph1done e he with h | ⟨heS1, hnef⟩
      · exact Or.inl h
      · have hplaced := hS1place e heS1
        cases hk : e.kind with
        | dir =>
          exfalso
          simp only [Placed, hk] at hplaced
          exact hnef hplaced
        | file =>
          simp only [Placed, hk] at hplaced
          rcases hplaced with ⟨hut, huf⟩ | hdd
          · by_cases hud : underB dest e.dir = true
            · exact Or.inl (hdest3 e heS1 hk hud)
            · refine Or.inr (List.mem_map.2 ⟨e, List.mem_filter.2 ⟨he, ?_⟩, rfl⟩)
              have hud2 : underB dest e.dir = false := by
                cases hc : underB dest e.dir with
                | false => rfl
                | true => exact absurd hc hud
              simp [hk, hut, hud2, huf]
          · exact Or.inl hdd)
  refine ⟨sortPassE_eq_ok routing target (target.joinRel fr.path) hfd
    (init.filter (fun e => e.dir = target)) init, ?_⟩
  rw [revertPass, revertPhase2]
  constructor
  · rw [hph2.1, hph1ids, hS1ids]
  · exact hph2.2

/-- A routing with a configured `Folders` category, as the round-trip
scenario requires. -/
def c8Routing : Routing :=
  [("Images", { path := ⟨false, ["Images"]⟩, extensions := [".jpg"] }),
   ("Others", { path := ⟨false, ["Misc"]⟩ }),
   ("Folders", { path := ⟨false, ["Folders"]⟩ })]

/-- The sorted root of the round-trip examples. -/
def c8Target : PPath := ⟨true, ["t"]⟩

/-- A revert destination outside the sorted root. -/
def c8Dest : PPath := ⟨true, ["r"]⟩

/-- A single file at the root, for the counterexample. -/
def c8Init : List REntry := [⟨0, EKind.file, ⟨true, ["t"]⟩, "photo.jpg", 0, 2020⟩]

/-- A file and a directory at the root, for the witness. -/
def c8InitW : List REntry :=
  [⟨0, EKind.file, ⟨true, ["t"]⟩, "photo.jpg", 0, 2020⟩,
   ⟨1, EKind.dir, ⟨true, ["t"]⟩, "sub", 0, 2020⟩]

/-- Claim C8, counterexample: reverting into the sorted target itself
restores nothing.  `photo.jpg` is sorted into `t/Images`; the revert walk
prunes every root at or below the destination, and with destination `t`
that is the walk's very first root, so the file stays in `t/Images` instead
of resting in the chosen destination directory. -/
theorem C8_counterexample_revert_into_target :
    ∃ e ∈ revertPass c8Target c8Target (sortPass c8Routing c8Target c8Init),
      e.kind = EKind.file ∧ e.dir ≠ c8Target := by decide

/-- Concrete round trip: a `.jpg` file and a directory sorted under `t`
(into `t/Images` and `t/Folders`) without aborting and reverted into `r`
both rest in `r`, with the identifier list preserved. -/
theorem C8_roundtrip_witness :
    (sortPassE c8Routing c8Target c8InitW
        = Except.ok (sortPass c8Routing c8Target c8InitW))
    ∧ ((revertPass c8Target c8Dest (sortPass c8Routing c8Target c8InitW)).map (fun e => e.id)
        = c8InitW.map (fun e => e.id))
    ∧ ∀ e ∈ revertPass c8Target c8Dest (sortPass c8Routing c8Target c8InitW),
        e.dir = c8Dest :=
  C8_sort_revert_roundtrip c8Routing c8Target c8Dest c8InitW
    (by decide) (by decide) (by decide) (by decide)
    ⟨{ path := ⟨false, ["Folders"]⟩ }, by decide, rfl⟩
    (by decide) (by decide) (by decide) (by decide) (by decide)

end Sortify
